import Mathlib

/-
Verification of the elfi lazy computation-graph core.

The development shallowly embeds `elfi/core.py` (slice/key algebra, the node
graph, `DelayedOutputCache`, `Operation` with `acquire`/`generate`/`get_slice`,
`Constant`, `ObservedMixin`) and the rejection sampler of `elfi/methods.py`.

Machine data (`numpy` arrays) is modelled by its first axis: an array is a
`List α` of its axis-0 entries ("sample rows").  A node's operation is
modelled by a function `f : Nat → Nat → List α` giving the `data` field of the
chunk computed for the key `(name, start, n)`; this reflects dask's
content-addressed keys: the chunk for a given `(start, n)` is always the same
computation.  The store-less configuration (`store=None`) is embedded: there
`_stored_mask` stays all-`False` and every read takes the in-flight branch of
`DelayedOutputCache._get_output_datalist`.
-/

deriving instance DecidableEq for Except

namespace Elfi

/-- Half-open integer index range `[start, stop)`; the embedding of the Python
`slice(start, stop)` values used throughout `core.py`. -/
structure Slice where
  start : Nat
  stop : Nat
deriving DecidableEq, Repr

/-- Modelled from the spec: `range_length` (`slen` of the missing
`elfi/utils.py`): "length of a possibly-empty range (zero if empty/invalid)". -/
def slen (sl : Slice) : Nat := sl.stop - sl.start

/-- Modelled from the spec: `range_intersect` (`slice_intersect` of the missing
`elfi/utils.py`): "returns the overlapping sub-range of two ranges (possibly
empty/zero-length), optionally re-based by an offset". -/
def slice_intersect (sl1 sl2 : Slice) (offset : Nat) : Slice :=
  let lo := max sl1.start sl2.start
  let hi := min sl1.stop sl2.stop
  if lo < hi then ⟨lo - offset, hi - offset⟩ else ⟨0, 0⟩

/-- `make_key(name, sl)` from `core.py`.  The source computes `n = slen(sl)`
and, when `n <= 0`, evaluates the expression `ValueError('Slice has no length')`
WITHOUT `raise`-ing it, so the function returns a key for every slice,
zero-length or not. -/
def make_key (name : String) (sl : Slice) : String × Nat × Nat :=
  (name, sl.start, slen sl)

/-- The error taxonomy of the spec (§7) for the failures raised by the embedded
code paths.  `sequenceError` is the `ValueError('Appending a non matching
slice')` of `DelayedOutputCache.append`; `missingObservedError` is the
`ValueError('There is no observed value to inherit')` of
`ObservedMixin._inherit_observed`; `attributeError` is the Python
`AttributeError` raised when `p.observed` is accessed on a parent that carries
no observed value; `quantileError` is the `ValueError("Quantile must be in
range ]0, 1].")` of `Rejection.sample`. -/
inductive ElfiError where
  | sequenceError
  | missingObservedError
  | attributeError
  | quantileError
deriving DecidableEq, Repr

/-- A delayed output chunk held by a `DelayedOutputCache`: its dask key is the
triple `(name, start, len)` (built by `make_key`), and `data` is the eventual
value of its `'data'` field (axis-0 rows). -/
structure Chunk (α : Type) where
  name : String
  start : Nat
  len : Nat
  data : List α
deriving DecidableEq

/-- `DelayedOutputCache.__len__`: the sum of the key lengths `o.key[2]` of the
chunks. -/
def cacheLen {α : Type} (outputs : List (Chunk α)) : Nat :=
  (outputs.map (·.len)).sum

/-- `DelayedOutputCache.append`: raises (`ValueError`, the spec's
`SequenceError`) unless the chunk's key range starts exactly at the current
total length; otherwise appends the chunk. -/
def DelayedOutputCache.append {α : Type} (outputs : List (Chunk α)) (c : Chunk α) :
    Except ElfiError (List (Chunk α)) :=
  if cacheLen outputs ≠ c.start then .error .sequenceError
  else .ok (outputs ++ [c])

/-- The loop body of `DelayedOutputCache._get_output_datalist` (store-less
path) for a single chunk: `none` when the chunk's key range does not overlap
`sl` (the `continue`), otherwise the chunk's `data`, sub-sliced
(`output_data[sub_sl]`) when the overlap is a strict sub-range of the chunk. -/
def chunkPiece {α : Type} (sl : Slice) (c : Chunk α) : Option (List α) :=
  let output_sl : Slice := ⟨c.start, c.start + c.len⟩
  let intsect_sl := slice_intersect output_sl sl 0
  if slen intsect_sl = 0 then none
  else if slen intsect_sl ≠ slen output_sl then
    let sub_sl := slice_intersect intsect_sl intsect_sl output_sl.start
    some ((c.data.drop sub_sl.start).take (slen sub_sl))
  else
    some c.data

/-- `DelayedOutputCache._get_output_datalist`: the overlapping chunks'
contributions in chunk order. -/
def getDataList {α : Type} (outputs : List (Chunk α)) (sl : Slice) : List (List α) :=
  outputs.filterMap (chunkPiece sl)

/-- `DelayedOutputCache.__getitem__`: at the data level the three cases (no
overlapping chunk: empty placeholder; one chunk: that piece; several chunks:
`np.vstack`) all amount to concatenating the data list in range order.
Modelled from the spec: the missing `elfi/utils.py` helper `to_slice`, which
`__getitem__` applies to its argument first, leaves a slice argument
unchanged, so the embedding takes the `Slice` directly. -/
def DelayedOutputCache.getItem {α : Type} (outputs : List (Chunk α)) (sl : Slice) : List α :=
  (getDataList outputs sl).flatten

/-- The state of an `Operation` node: its name, `_generate_index` and the chunk
list of its `_delayed_outputs` cache.  The node's operation itself is passed to
the functions below as `f : Nat → Nat → List α` (data produced for the chunk
keyed `(name, start, n)`). -/
structure Operation (α : Type) where
  name : String
  generate_index : Nat
  outputs : List (Chunk α)
deriving DecidableEq

/-- `Operation.get_slice` (state part, `with_values=None` path): when the cache
does not reach `sl.stop`, build the single new chunk covering
`[len(cache), sl.stop)` (its input dict and dask key `make_key(name, new_sl)`
are built by `_create_input_dict` / `_create_delayed_output`) and append it.
The generated index is not touched. -/
def Operation.get_sliceState {α : Type} (f : Nat → Nat → List α) (s : Operation α)
    (sl : Slice) : Operation α :=
  if cacheLen s.outputs < sl.stop then
    let l := cacheLen s.outputs
    { s with outputs := s.outputs ++ [⟨s.name, l, sl.stop - l, f l (sl.stop - l)⟩] }
  else s

/-- `Operation.get_slice` including its return value `self[sl]`. -/
def Operation.get_slice {α : Type} (f : Nat → Nat → List α) (s : Operation α)
    (sl : Slice) : Operation α × List α :=
  let s2 := Operation.get_sliceState f s sl
  (s2, DelayedOutputCache.getItem s2.outputs sl)

theorem cacheLen_append {α : Type} (outputs : List (Chunk α)) (c : Chunk α) :
    cacheLen (outputs ++ [c]) = cacheLen outputs + c.len := by
  simp [cacheLen]

theorem cacheLen_get_sliceState {α : Type} (f : Nat → Nat → List α) (s : Operation α)
    (sl : Slice) :
    cacheLen ((Operation.get_sliceState f s sl).outputs)
      = max (cacheLen s.outputs) sl.stop := by
  unfold Operation.get_sliceState
  by_cases h : cacheLen s.outputs < sl.stop
  · simp [h, cacheLen_append]
    omega
  · simp [h]
    omega

/-- The `while len(self._delayed_outputs) < b` loop body of `Operation.generate`.
The extra `0 < bs` guard is the termination condition: the source loop would
not terminate with `bs = 0` and an uncovered `b`, a state `generate` never
reaches (`batch_size or n` yields `0` only when `n = 0`, in which case `b`
equals the generated index, which never exceeds the cache length). -/
def Operation.generateLoop {α : Type} (f : Nat → Nat → List α) (b bs : Nat)
    (s : Operation α) : Operation α :=
  if hlt : cacheLen s.outputs < b ∧ 0 < bs then
    let l := cacheLen s.outputs
    let n_batch := min (b - l) bs
    Operation.generateLoop f b bs (Operation.get_sliceState f s ⟨l, l + n_batch⟩)
  else s
termination_by b - cacheLen s.outputs
decreasing_by
  simp only [cacheLen_get_sliceState]
  omega

/-- Python's `batch_size or n`: both `None` and `0` are falsy. -/
def pythonOr (batch_size : Option Nat) (n : Nat) : Nat :=
  match batch_size with
  | none => n
  | some 0 => n
  | some k => k

/-- `Operation.generate` (`with_values=None` path): fill the cache up to
`b = a + n` in batches of at most `batch_size` (defaulting to `n`), advance the
generated index to `b`, and return `self[a:b]`. -/
def Operation.generate {α : Type} (f : Nat → Nat → List α) (s : Operation α)
    (n : Nat) (batch_size : Option Nat) : Operation α × List α :=
  let a := s.generate_index
  let b := a + n
  let bs := pythonOr batch_size n
  let s1 := Operation.generateLoop f b bs s
  let s2 := { s1 with generate_index := b }
  (s2, DelayedOutputCache.getItem s2.outputs ⟨a, b⟩)

/-- `Operation.acquire`: generate the shortfall beyond the generated index, then
read `[starting, starting + n)` through `get_slice`. -/
def Operation.acquire {α : Type} (f : Nat → Nat → List α) (s : Operation α)
    (n starting : Nat) (batch_size : Option Nat) : Operation α × List α :=
  let sl : Slice := ⟨starting, starting + n⟩
  let s1 := if s.generate_index < sl.stop
    then (Operation.generate f s (sl.stop - s.generate_index) batch_size).1
    else s
  Operation.get_slice f s1 sl

/-- The chunk keys cover `[base, base + cacheLen)` contiguously, in order,
without gaps or overlaps. -/
def chunksFrom {α : Type} (base : Nat) : List (Chunk α) → Prop
  | [] => True
  | c :: rest => c.start = base ∧ chunksFrom (base + c.len) rest

/-- Cache well-formedness: the spec's invariant that the chunks form a
contiguous, gap-free, ordered partition of index space starting at 0, plus the
data contract that a chunk keyed for `n` samples has `n` axis-0 rows. -/
def WF {α : Type} (s : Operation α) : Prop :=
  chunksFrom 0 s.outputs ∧ ∀ c ∈ s.outputs, c.data.length = c.len

/-- All cached rows in key order. -/
def flatData {α : Type} (outputs : List (Chunk α)) : List α :=
  (outputs.map (·.data)).flatten

theorem slice_intersect_mk (a1 b1 a2 b2 off : Nat) :
    slice_intersect ⟨a1, b1⟩ ⟨a2, b2⟩ off =
      if max a1 a2 < min b1 b2 then (⟨max a1 a2 - off, min b1 b2 - off⟩ : Slice)
      else ⟨0, 0⟩ := rfl

theorem slice_intersect_mk_pos (a1 b1 a2 b2 : Nat) (h : max a1 a2 < min b1 b2) :
    slice_intersect ⟨a1, b1⟩ ⟨a2, b2⟩ 0 = ⟨max a1 a2, min b1 b2⟩ := by
  rw [slice_intersect_mk, if_pos h]
  simp

theorem slice_intersect_mk_self (x y off : Nat) (h : x < y) :
    slice_intersect ⟨x, y⟩ ⟨x, y⟩ off = ⟨x - off, y - off⟩ := by
  rw [slice_intersect_mk]
  simp [h]

theorem chunkPiece_of_no_overlap {α : Type} (c : Chunk α) (a b : Nat)
    (h : ¬ max c.start a < min (c.start + c.len) b) :
    chunkPiece ⟨a, b⟩ c = none := by
  simp only [chunkPiece, slice_intersect_mk, if_neg h]
  simp [slen]

theorem chunkPiece_of_full {α : Type} (c : Chunk α) (a b : Nat)
    (h : max c.start a < min (c.start + c.len) b)
    (hfull : min (c.start + c.len) b - max c.start a = c.len) :
    chunkPiece ⟨a, b⟩ c = some c.data := by
  have hne : ¬(slen ⟨max c.start a, min (c.start + c.len) b⟩ = 0) := by
    simp only [slen]
    omega
  have hne2 : ¬(slen ⟨max c.start a, min (c.start + c.len) b⟩
      ≠ slen ⟨c.start, c.start + c.len⟩) := by
    simp only [slen]
    omega
  simp only [chunkPiece, slice_intersect_mk_pos c.start (c.start + c.len) a b h,
    if_neg hne, if_neg hne2]

theorem chunkPiece_of_part {α : Type} (c : Chunk α) (a b : Nat)
    (h : max c.start a < min (c.start + c.len) b)
    (hpart : min (c.start + c.len) b - max c.start a ≠ c.len) :
    chunkPiece ⟨a, b⟩ c = some ((c.data.drop (max c.start a - c.start)).take
      ((min (c.start + c.len) b - c.start) - (max c.start a - c.start))) := by
  have hne : ¬(slen ⟨max c.start a, min (c.start + c.len) b⟩ = 0) := by
    simp only [slen]
    omega
  have hp : slen ⟨max c.start a, min (c.start + c.len) b⟩
      ≠ slen ⟨c.start, c.start + c.len⟩ := by
    simp only [slen]
    omega
  simp only [chunkPiece, slice_intersect_mk_pos c.start (c.start + c.len) a b h,
    if_neg hne, if_pos hp,
    slice_intersect_mk_self (max c.start a) (min (c.start + c.len) b) c.start h]
  simp [slen]

/-- Reading any range out of a well-formed cache is a `take`/`drop` of the
concatenation of all chunk data: chunk splitting/merging is transparent. -/
theorem getItem_eq_take_drop {α : Type} (outputs : List (Chunk α)) (base : Nat)
    (hc : chunksFrom base outputs) (hd : ∀ c ∈ outputs, c.data.length = c.len)
    (a b : Nat) :
    DelayedOutputCache.getItem outputs ⟨a, b⟩ =
      ((flatData outputs).drop (a - base)).take ((b - base) - (a - base)) := by
  induction outputs generalizing base with
  | nil => simp [DelayedOutputCache.getItem, getDataList, flatData]
  | cons c rest ih =>
    obtain ⟨hst, hrest⟩ := hc
    subst hst
    have hdc : c.data.length = c.len := hd c (List.mem_cons_self c rest)
    have hdr : ∀ x ∈ rest, x.data.length = x.len :=
      fun x hx => hd x (List.mem_cons_of_mem c hx)
    have ihr := ih (c.start + c.len) hrest hdr
    have hitem : ∀ l : List (Chunk α), DelayedOutputCache.getItem l ⟨a, b⟩
        = (getDataList l ⟨a, b⟩).flatten := fun l => rfl
    have hflat : flatData (c :: rest) = c.data ++ flatData rest := by
      simp [flatData]
    have hsplit :
        ((flatData (c :: rest)).drop (a - c.start)).take
            ((b - c.start) - (a - c.start))
          = ((c.data.drop (a - c.start)).take ((b - c.start) - (a - c.start)))
            ++ (((flatData rest).drop ((a - c.start) - c.len)).take
                 (((b - c.start) - (a - c.start)) - (c.len - (a - c.start)))) := by
      rw [hflat, List.drop_append_eq_append_drop, List.take_append_eq_append_take,
        List.length_drop, hdc]
    have hseg2 : (getDataList rest ⟨a, b⟩).flatten
        = ((flatData rest).drop ((a - c.start) - c.len)).take
            (((b - c.start) - (a - c.start)) - (c.len - (a - c.start))) := by
      rw [← hitem rest, ihr]
      congr 1
      · omega
      · congr 1
        omega
    rw [hitem]
    by_cases h : max c.start a < min (c.start + c.len) b
    · have hcons : getDataList (c :: rest) ⟨a, b⟩
          = ((c.data.drop (a - c.start)).take ((b - c.start) - (a - c.start)))
            :: getDataList rest ⟨a, b⟩ := by
        by_cases hfull : min (c.start + c.len) b - max c.start a = c.len
        · have hdata : c.data
              = (c.data.drop (a - c.start)).take ((b - c.start) - (a - c.start)) := by
            have h1 : a - c.start = 0 := by omega
            have hlen : c.data.length ≤ (b - c.start) - (a - c.start) := by omega
            rw [h1] at hlen ⊢
            rw [List.drop_zero]
            exact (List.take_of_length_le hlen).symm
          calc getDataList (c :: rest) ⟨a, b⟩
              = c.data :: getDataList rest ⟨a, b⟩ := by
                simp only [getDataList, List.filterMap_cons,
                  chunkPiece_of_full c a b h hfull]
            _ = _ := congrArg (fun x => x :: getDataList rest ⟨a, b⟩) hdata
        · have hdata : (c.data.drop (max c.start a - c.start)).take
              ((min (c.start + c.len) b - c.start) - (max c.start a - c.start))
              = (c.data.drop (a - c.start)).take ((b - c.start) - (a - c.start)) := by
            have h1 : max c.start a - c.start = a - c.start := by omega
            rw [h1, List.take_eq_take, List.length_drop, hdc]
            omega
          calc getDataList (c :: rest) ⟨a, b⟩
              = ((c.data.drop (max c.start a - c.start)).take
                  ((min (c.start + c.len) b - c.start) - (max c.start a - c.start)))
                :: getDataList rest ⟨a, b⟩ := by
                simp only [getDataList, List.filterMap_cons,
                  chunkPiece_of_part c a b h hfull]
            _ = _ := congrArg (fun x => x :: getDataList rest ⟨a, b⟩) hdata
      rw [hcons, List.flatten_cons, hseg2, hsplit]
    · have hcons : getDataList (c :: rest) ⟨a, b⟩ = getDataList rest ⟨a, b⟩ := by
        simp only [getDataList, List.filterMap_cons, chunkPiece_of_no_overlap c a b h]
      have hseg1 : (c.data.drop (a - c.start)).take
          ((b - c.start) - (a - c.start)) = [] := by
        have hlen0 : ((c.data.drop (a - c.start)).take
            ((b - c.start) - (a - c.start))).length = 0 := by
          rw [List.length_take, List.length_drop, hdc]
          omega
        exact List.length_eq_zero.mp hlen0
      rw [hcons, hseg2, hsplit, hseg1, List.nil_append]

/-- Reading `[a, b)` from a well-formed cache is the sub-list of rows `a..b-1`
of the concatenated data. -/
theorem getItem_of_WF {α : Type} (s : Operation α) (hwf : WF s) (a b : Nat) :
    DelayedOutputCache.getItem s.outputs ⟨a, b⟩
      = ((flatData s.outputs).drop a).take (b - a) := by
  have h := getItem_eq_take_drop s.outputs 0 hwf.1 hwf.2 a b
  simpa using h

theorem flatData_length {α : Type} (outputs : List (Chunk α))
    (hd : ∀ c ∈ outputs, c.data.length = c.len) :
    (flatData outputs).length = cacheLen outputs := by
  induction outputs with
  | nil => simp [flatData, cacheLen]
  | cons c rest ih =>
    have hdc : c.data.length = c.len := hd c (List.mem_cons_self c rest)
    have hdr : ∀ x ∈ rest, x.data.length = x.len :=
      fun x hx => hd x (List.mem_cons_of_mem c hx)
    simp [flatData, cacheLen] at *
    rw [hdc, ih hdr]

theorem chunksFrom_append {α : Type} (l : List (Chunk α)) (base : Nat) (c : Chunk α)
    (hc : chunksFrom base l) (hstart : c.start = base + cacheLen l) :
    chunksFrom base (l ++ [c]) := by
  induction l generalizing base with
  | nil =>
    refine ⟨?_, trivial⟩
    simpa [cacheLen] using hstart
  | cons d rest ih =>
    obtain ⟨hds, hrest⟩ := hc
    refine ⟨hds, ih (base + d.len) hrest ?_⟩
    rw [hstart]
    simp [cacheLen]
    omega

theorem outputs_get_sliceState_of_lt {α : Type} (f : Nat → Nat → List α)
    (s : Operation α) (sl : Slice) (h : cacheLen s.outputs < sl.stop) :
    (Operation.get_sliceState f s sl).outputs
      = s.outputs ++ [⟨s.name, cacheLen s.outputs, sl.stop - cacheLen s.outputs,
          f (cacheLen s.outputs) (sl.stop - cacheLen s.outputs)⟩] := by
  unfold Operation.get_sliceState
  rw [if_pos h]

theorem get_sliceState_of_ge {α : Type} (f : Nat → Nat → List α)
    (s : Operation α) (sl : Slice) (h : ¬ cacheLen s.outputs < sl.stop) :
    Operation.get_sliceState f s sl = s := by
  unfold Operation.get_sliceState
  rw [if_neg h]

theorem gidx_get_sliceState {α : Type} (f : Nat → Nat → List α)
    (s : Operation α) (sl : Slice) :
    (Operation.get_sliceState f s sl).generate_index = s.generate_index := by
  unfold Operation.get_sliceState
  split_ifs <;> rfl

theorem name_get_sliceState {α : Type} (f : Nat → Nat → List α)
    (s : Operation α) (sl : Slice) :
    (Operation.get_sliceState f s sl).name = s.name := by
  unfold Operation.get_sliceState
  split_ifs <;> rfl

/-- `get_slice` preserves the cache invariant (assuming the operation returns
as many rows as requested, `shape[0] == n`). -/
theorem WF_get_sliceState {α : Type} (f : Nat → Nat → List α)
    (hf : ∀ l n, (f l n).length = n) (s : Operation α) (sl : Slice) (hwf : WF s) :
    WF (Operation.get_sliceState f s sl) := by
  by_cases h : cacheLen s.outputs < sl.stop
  · constructor
    · rw [outputs_get_sliceState_of_lt f s sl h]
      exact chunksFrom_append _ 0 _ hwf.1 (by simp)
    · intro c hcmem
      rw [outputs_get_sliceState_of_lt f s sl h] at hcmem
      rcases List.mem_append.mp hcmem with hm | hm
      · exact hwf.2 c hm
      · simp only [List.mem_singleton] at hm
        subst hm
        simp [hf]
  · rw [get_sliceState_of_ge f s sl h]
    exact hwf

/-- Full characterization of the cache-filling loop of `generate`: it appends
zero or more fresh chunks, each of size at most `bs`, never touches the
generated index, and ends with the cache covering `b`; when a single batch
suffices it appends exactly the one chunk `[len, b)`. -/
theorem generateLoop_spec {α : Type} (f : Nat → Nat → List α) (b bs : Nat)
    (hbs : 0 < bs) (s : Operation α) :
    ∃ new, (Operation.generateLoop f b bs s).outputs = s.outputs ++ new ∧
      (∀ c ∈ new, c.len ≤ bs ∧ c.name = s.name) ∧
      (Operation.generateLoop f b bs s).generate_index = s.generate_index ∧
      (Operation.generateLoop f b bs s).name = s.name ∧
      cacheLen (Operation.generateLoop f b bs s).outputs
        = max (cacheLen s.outputs) b ∧
      (cacheLen s.outputs < b → b - cacheLen s.outputs ≤ bs →
        new = [⟨s.name, cacheLen s.outputs, b - cacheLen s.outputs,
               f (cacheLen s.outputs) (b - cacheLen s.outputs)⟩]) ∧
      (¬ cacheLen s.outputs < b → new = []) := by
  suffices H : ∀ m (s : Operation α), b - cacheLen s.outputs = m →
      ∃ new, (Operation.generateLoop f b bs s).outputs = s.outputs ++ new ∧
        (∀ c ∈ new, c.len ≤ bs ∧ c.name = s.name) ∧
        (Operation.generateLoop f b bs s).generate_index = s.generate_index ∧
        (Operation.generateLoop f b bs s).name = s.name ∧
        cacheLen (Operation.generateLoop f b bs s).outputs
          = max (cacheLen s.outputs) b ∧
        (cacheLen s.outputs < b → b - cacheLen s.outputs ≤ bs →
          new = [⟨s.name, cacheLen s.outputs, b - cacheLen s.outputs,
                 f (cacheLen s.outputs) (b - cacheLen s.outputs)⟩]) ∧
        (¬ cacheLen s.outputs < b → new = []) by
    exact H _ s rfl
  intro m
  induction m using Nat.strong_induction_on with
  | _ m ih =>
    intro s hm
    by_cases hcond : cacheLen s.outputs < b
    · -- one more iteration
      set l := cacheLen s.outputs with hl
      set nb := min (b - l) bs with hnb
      have hnb1 : 0 < nb := by omega
      have hstop : l < l + nb := by omega
      set s1 := Operation.get_sliceState f s ⟨l, l + nb⟩ with hs1
      have houts1 : s1.outputs = s.outputs
          ++ [⟨s.name, l, (l + nb) - l, f l ((l + nb) - l)⟩] :=
        outputs_get_sliceState_of_lt f s ⟨l, l + nb⟩ hstop
      have hlen1 : cacheLen s1.outputs = l + nb := by
        rw [hs1, cacheLen_get_sliceState]
        rw [show ((⟨l, l + nb⟩ : Slice).stop) = l + nb from rfl]
        omega
      have hloop : Operation.generateLoop f b bs s
          = Operation.generateLoop f b bs s1 := by
        rw [Operation.generateLoop]
        rw [dif_pos ⟨hcond, hbs⟩]
      have hmeas : b - cacheLen s1.outputs < m := by
        rw [hlen1]
        omega
      obtain ⟨new1, ho1, hsz1, hgi1, hname1, hcl1, hone1, hnil1⟩ :=
        ih (b - cacheLen s1.outputs) hmeas s1 rfl
      have hsimp : (l + nb) - l = nb := by omega
      refine ⟨⟨s.name, l, nb, f l nb⟩ :: new1, ?_, ?_, ?_, ?_, ?_, ?_, ?_⟩
      · rw [hloop, ho1, houts1, hsimp]
        simp
      · intro c hc
        rcases List.mem_cons.mp hc with hc | hc
        · subst hc
          constructor
          · simp
            omega
          · rfl
        · have hn1 : s1.name = s.name := name_get_sliceState f s _
          have := hsz1 c hc
          exact ⟨this.1, by rw [this.2, hn1]⟩
      · rw [hloop, hgi1, hs1, gidx_get_sliceState]
      · rw [hloop, hname1, hs1, name_get_sliceState]
      · rw [hloop, hcl1, hlen1]
        omega
      · intro _ hfit
        have hnbfit : nb = b - l := by omega
        have hb1 : ¬ cacheLen s1.outputs < b := by omega
        rw [hnil1 hb1]
        rw [hnbfit]
      · intro hnot
        exact absurd hcond hnot
    · -- loop exits immediately
      have hloop : Operation.generateLoop f b bs s = s := by
        rw [Operation.generateLoop]
        rw [dif_neg (by tauto)]
      refine ⟨[], by simp [hloop], by simp, by simp [hloop], by simp [hloop],
        ?_, ?_, fun _ => rfl⟩
      · rw [hloop]
        omega
      · intro hlt
        exact absurd hlt hcond

/-- The filling loop preserves the cache invariant. -/
theorem WF_generateLoop {α : Type} (f : Nat → Nat → List α)
    (hf : ∀ l n, (f l n).length = n) (b bs : Nat) (s : Operation α) (hwf : WF s) :
    WF (Operation.generateLoop f b bs s) := by
  suffices H : ∀ m (s : Operation α), b - cacheLen s.outputs = m → WF s →
      WF (Operation.generateLoop f b bs s) by
    exact H _ s rfl hwf
  intro m
  induction m using Nat.strong_induction_on with
  | _ m ih =>
    intro s hm hwfs
    by_cases hcond : cacheLen s.outputs < b ∧ 0 < bs
    · rw [Operation.generateLoop, dif_pos hcond]
      set l := cacheLen s.outputs with hl
      set nb := min (b - l) bs with hnb
      set s1 := Operation.get_sliceState f s ⟨l, l + nb⟩ with hs1
      have hlen1 : cacheLen s1.outputs = l + nb := by
        rw [hs1, cacheLen_get_sliceState]
        rw [show ((⟨l, l + nb⟩ : Slice).stop) = l + nb from rfl]
        omega
      have hmeas : b - cacheLen s1.outputs < m := by
        rw [hlen1]
        omega
      exact ih _ hmeas s1 rfl (WF_get_sliceState f hf s _ hwfs)
    · rw [Operation.generateLoop, dif_neg hcond]
      exact hwfs

/-- C2: `DelayedOutputCache.append` fails with a `SequenceError` if and only if
the chunk's key range does not start exactly at the current cache length (the
sum of the appended key lengths); when it succeeds, the chunk goes to the end
and a contiguous, gap-free, non-overlapping partition of index space starting
at 0 stays one. -/
theorem C2_append_iff_sequence_error {α : Type} (outputs : List (Chunk α))
    (c : Chunk α) :
    (DelayedOutputCache.append outputs c = .error .sequenceError
      ↔ c.start ≠ cacheLen outputs) ∧
    (∀ outputs2, DelayedOutputCache.append outputs c = .ok outputs2 →
      outputs2 = outputs ++ [c] ∧ (chunksFrom 0 outputs → chunksFrom 0 outputs2)) := by
  constructor
  · unfold DelayedOutputCache.append
    by_cases h : cacheLen outputs ≠ c.start
    · rw [if_pos h]
      simp
      omega
    · rw [if_neg h]
      simp
      omega
  · intro outputs2 hok
    unfold DelayedOutputCache.append at hok
    by_cases h : cacheLen outputs ≠ c.start
    · rw [if_pos h] at hok
      exact absurd hok (by simp)
    · rw [if_neg h] at hok
      simp only [Except.ok.injEq] at hok
      subst hok
      refine ⟨rfl, fun hch => ?_⟩
      exact chunksFrom_append outputs 0 c hch (by omega)

/-- C2 witness: the spec's example scenario — appending `[5,10)` to an empty
cache fails, appending `[0,5)` then `[5,10)` succeeds and keeps the partition
invariant, then appending `[3,8)` fails. -/
theorem C2_append_witness :
    (DelayedOutputCache.append ([] : List (Chunk Nat)) ⟨"n", 5, 5, [0, 0, 0, 0, 0]⟩
      = .error .sequenceError) ∧
    (DelayedOutputCache.append ([] : List (Chunk Nat)) ⟨"n", 0, 5, [0, 1, 2, 3, 4]⟩
      = .ok [⟨"n", 0, 5, [0, 1, 2, 3, 4]⟩]) ∧
    (DelayedOutputCache.append [⟨"n", 0, 5, [0, 1, 2, 3, 4]⟩] ⟨"n", 5, 5, [5, 6, 7, 8, 9]⟩
      = .ok [⟨"n", 0, 5, [0, 1, 2, 3, 4]⟩, ⟨"n", 5, 5, [5, 6, 7, 8, 9]⟩]) ∧
    chunksFrom 0 [(⟨"n", 0, 5, [0, 1, 2, 3, 4]⟩ : Chunk Nat), ⟨"n", 5, 5, [5, 6, 7, 8, 9]⟩] ∧
    (DelayedOutputCache.append [⟨"n", 0, 5, [0, 1, 2, 3, 4]⟩, ⟨"n", 5, 5, [5, 6, 7, 8, 9]⟩]
      (⟨"n", 3, 5, [3, 4, 5, 6, 7]⟩ : Chunk Nat) = .error .sequenceError) := by
  refine ⟨?_, by decide, by decide, ?_, ?_⟩
  · exact (C2_append_iff_sequence_error ([] : List (Chunk Nat))
      ⟨"n", 5, 5, [0, 0, 0, 0, 0]⟩).1.mpr (by decide)
  · exact ((C2_append_iff_sequence_error [(⟨"n", 0, 5, [0, 1, 2, 3, 4]⟩ : Chunk Nat)]
      ⟨"n", 5, 5, [5, 6, 7, 8, 9]⟩).2
      [⟨"n", 0, 5, [0, 1, 2, 3, 4]⟩, ⟨"n", 5, 5, [5, 6, 7, 8, 9]⟩] (by decide)).2
      (by simp [chunksFrom])
  · exact (C2_append_iff_sequence_error
      [(⟨"n", 0, 5, [0, 1, 2, 3, 4]⟩ : Chunk Nat), ⟨"n", 5, 5, [5, 6, 7, 8, 9]⟩]
      ⟨"n", 3, 5, [3, 4, 5, 6, 7]⟩).1.mpr (by decide)

/-- C4 (code bug): `make_key` applied to the zero-length range `[0, 0)` returns
the key `("x", 0, 0)` normally instead of failing: in the source the branch
`if n <= 0:` merely constructs `ValueError('Slice has no length')` and never
raises it. -/
theorem C4_make_key_zero_length_returns : make_key "x" ⟨0, 0⟩ = ("x", 0, 0) := rfl

/-- C10: a `get_slice(slice(a, b))` whose `b` exceeds the current cache length
`L` appends exactly one chunk keyed `[L, b)` — also when `a > L`, so the gap
below `a` is filled by the same single chunk with no batch-size limit — that
chunk passes the cache's checked `append`, the generated index is untouched,
and the cache becomes a well-formed gap-free partition of `[0, b)`. -/
theorem C10_get_slice_single_chunk {α : Type} (f : Nat → Nat → List α)
    (hf : ∀ l n, (f l n).length = n) (s : Operation α) (a b : Nat)
    (hwf : WF s) (hb : cacheLen s.outputs < b) :
    ((Operation.get_slice f s ⟨a, b⟩).1).outputs
      = s.outputs ++ [⟨s.name, cacheLen s.outputs, b - cacheLen s.outputs,
          f (cacheLen s.outputs) (b - cacheLen s.outputs)⟩] ∧
    DelayedOutputCache.append s.outputs
      ⟨s.name, cacheLen s.outputs, b - cacheLen s.outputs,
          f (cacheLen s.outputs) (b - cacheLen s.outputs)⟩
      = .ok (((Operation.get_slice f s ⟨a, b⟩).1).outputs) ∧
    ((Operation.get_slice f s ⟨a, b⟩).1).generate_index = s.generate_index ∧
    WF ((Operation.get_slice f s ⟨a, b⟩).1) ∧
    cacheLen (((Operation.get_slice f s ⟨a, b⟩).1).outputs) = b := by
  have hfst : (Operation.get_slice f s ⟨a, b⟩).1 = Operation.get_sliceState f s ⟨a, b⟩ :=
    rfl
  have houts := outputs_get_sliceState_of_lt f s ⟨a, b⟩ hb
  refine ⟨by rw [hfst]; exact houts, ?_, ?_, ?_, ?_⟩
  · rw [hfst, houts]
    unfold DelayedOutputCache.append
    rw [if_neg (by simp)]
  · rw [hfst]
    exact gidx_get_sliceState f s _
  · rw [hfst]
    exact WF_get_sliceState f hf s _ hwf
  · rw [hfst, cacheLen_get_sliceState]
    rw [show ((⟨a, b⟩ : Slice).stop) = b from rfl]
    omega

/-- C10 witness: a cache of length 2 extended by `get_slice(slice(3, 5))`
appends the single gap-covering chunk `[2, 5)` and leaves the generated index
at 0. -/
theorem C10_get_slice_witness :
    WF (⟨"x", 0, [⟨"x", 0, 2, [5, 5]⟩]⟩ : Operation Nat) ∧
    ((Operation.get_slice (fun l n => List.replicate n l)
        (⟨"x", 0, [⟨"x", 0, 2, [5, 5]⟩]⟩ : Operation Nat) ⟨3, 5⟩).1).outputs
      = [⟨"x", 0, 2, [5, 5]⟩, ⟨"x", 2, 3, [2, 2, 2]⟩] ∧
    ((Operation.get_slice (fun l n => List.replicate n l)
        (⟨"x", 0, [⟨"x", 0, 2, [5, 5]⟩]⟩ : Operation Nat) ⟨3, 5⟩).1).generate_index
      = 0 := by
  have hwf : WF (⟨"x", 0, [⟨"x", 0, 2, [5, 5]⟩]⟩ : Operation Nat) := by
    refine ⟨by simp [chunksFrom], by decide⟩
  have h := C10_get_slice_single_chunk (fun l n => List.replicate n l)
    (fun l n => by simp) (⟨"x", 0, [⟨"x", 0, 2, [5, 5]⟩]⟩ : Operation Nat) 3 5 hwf
    (by simp [cacheLen])
  refine ⟨hwf, ?_, h.2.2.1⟩
  rw [h.1]
  rfl

/-- C3: `generate(n, batch_size)` advances the generated index from `a` to
exactly `a + n`, appends only fresh chunks, each of size at most the effective
batch size (all of `n` in one single chunk when `batch_size` is `None` and the
cache stands at the generated index), preserves the cache invariant, and
returns the output slice `[a, a + n)`. -/
theorem C3_generate_spec {α : Type} (f : Nat → Nat → List α)
    (hf : ∀ l n, (f l n).length = n) (s : Operation α) (n : Nat)
    (batch_size : Option Nat) (hn : 0 < n) (hwf : WF s)
    (hidx : s.generate_index ≤ cacheLen s.outputs) :
    ((Operation.generate f s n batch_size).1).generate_index
      = s.generate_index + n ∧
    (∃ new, ((Operation.generate f s n batch_size).1).outputs = s.outputs ++ new ∧
      ∀ c ∈ new, c.len ≤ pythonOr batch_size n) ∧
    (batch_size = none → cacheLen s.outputs = s.generate_index →
      ((Operation.generate f s n batch_size).1).outputs
        = s.outputs ++ [⟨s.name, s.generate_index, n, f s.generate_index n⟩]) ∧
    WF ((Operation.generate f s n batch_size).1) ∧
    (Operation.generate f s n batch_size).2
      = ((flatData (((Operation.generate f s n batch_size).1).outputs)).drop
          s.generate_index).take n := by
  have hbs : 0 < pythonOr batch_size n := by
    cases batch_size with
    | none => simpa [pythonOr] using hn
    | some k =>
      cases k with
      | zero => simpa [pythonOr] using hn
      | succ j => simp [pythonOr]
  obtain ⟨new, ho, hsz, hgi, hname, hcl, hone, hnil⟩ :=
    generateLoop_spec f (s.generate_index + n) (pythonOr batch_size n) hbs s
  have h1 : (Operation.generate f s n batch_size).1
      = { Operation.generateLoop f (s.generate_index + n) (pythonOr batch_size n) s
          with generate_index := s.generate_index + n } := rfl
  have h2 : (Operation.generate f s n batch_size).2
      = DelayedOutputCache.getItem
          (((Operation.generate f s n batch_size).1).outputs)
          ⟨s.generate_index, s.generate_index + n⟩ := rfl
  have houts : ((Operation.generate f s n batch_size).1).outputs
      = s.outputs ++ new := by
    rw [h1]
    exact ho
  have hwf2 : WF ((Operation.generate f s n batch_size).1) := by
    rw [h1]
    exact WF_generateLoop f hf _ _ s hwf
  refine ⟨by rw [h1], ⟨new, houts, fun c hc => (hsz c hc).1⟩, ?_, hwf2, ?_⟩
  · intro hbnone heq
    have hlt : cacheLen s.outputs < s.generate_index + n := by omega
    have hfit : (s.generate_index + n) - cacheLen s.outputs ≤ pythonOr batch_size n := by
      subst hbnone
      simp only [pythonOr]
      omega
    have hnew := hone hlt hfit
    rw [houts, hnew, heq]
    rw [show s.generate_index + n - s.generate_index = n from by omega]
  · rw [h2, getItem_of_WF _ hwf2]
    rw [show s.generate_index + n - s.generate_index = n from by omega]

/-- C3 witness: generating 5 samples with batch size 2 from a fresh node
advances the generated index to exactly 5. -/
theorem C3_generate_witness :
    (0 : Nat) < 5 ∧ WF (⟨"x", 0, []⟩ : Operation Nat) ∧
    ((Operation.generate (fun l n => (List.range n).map (l + ·))
        (⟨"x", 0, []⟩ : Operation Nat) 5 (some 2)).1).generate_index = 0 + 5 := by
  have hwf : WF (⟨"x", 0, []⟩ : Operation Nat) := ⟨trivial, by decide⟩
  refine ⟨by decide, hwf, ?_⟩
  exact (C3_generate_spec (fun l n => (List.range n).map (l + ·))
    (fun l n => by simp) (⟨"x", 0, []⟩ : Operation Nat) 5 (some 2)
    (by decide) hwf (by decide)).1

/-- C1: once `[0, b)` is generated (`b ≤ _generate_index ≤ len(cache)`), both
`acquire(b)` and a direct `get_slice(slice(a, b))` leave the node's state
untouched — so re-requests are served from the same chunks with the same data —
and rows `[a, b)` of the `acquire(b)` result equal the `get_slice(slice(a, b))`
result, no matter how many `generate` calls of whatever batch sizes produced
the cached chunks. -/
theorem C1_acquire_restriction_eq_get_slice {α : Type} (f : Nat → Nat → List α)
    (s : Operation α) (a b : Nat) (batch_size : Option Nat) (hwf : WF s)
    (hab : a ≤ b) (hgen : b ≤ s.generate_index)
    (hidx : s.generate_index ≤ cacheLen s.outputs) :
    (Operation.acquire f s b 0 batch_size).1 = s ∧
    (Operation.get_slice f s ⟨a, b⟩).1 = s ∧
    (Operation.acquire f s b 0 batch_size).2.drop a
      = (Operation.get_slice f s ⟨a, b⟩).2 := by
  have hnlt : ¬ s.generate_index < (⟨0, 0 + b⟩ : Slice).stop := by
    rw [show ((⟨0, 0 + b⟩ : Slice)).stop = 0 + b from rfl]
    omega
  have hacq : Operation.acquire f s b 0 batch_size
      = Operation.get_slice f s ⟨0, 0 + b⟩ := by
    simp only [Operation.acquire]
    rw [if_neg hnlt]
  have hge1 : ¬ cacheLen s.outputs < (⟨0, 0 + b⟩ : Slice).stop := by
    rw [show ((⟨0, 0 + b⟩ : Slice)).stop = 0 + b from rfl]
    omega
  have hge2 : ¬ cacheLen s.outputs < (⟨a, b⟩ : Slice).stop := by
    rw [show ((⟨a, b⟩ : Slice)).stop = b from rfl]
    omega
  have hgs1 : Operation.get_slice f s ⟨0, 0 + b⟩
      = (s, DelayedOutputCache.getItem s.outputs ⟨0, 0 + b⟩) := by
    simp only [Operation.get_slice]
    rw [get_sliceState_of_ge f s _ hge1]
  have hgs2 : Operation.get_slice f s ⟨a, b⟩
      = (s, DelayedOutputCache.getItem s.outputs ⟨a, b⟩) := by
    simp only [Operation.get_slice]
    rw [get_sliceState_of_ge f s _ hge2]
  refine ⟨by rw [hacq, hgs1], by rw [hgs2], ?_⟩
  rw [hacq, hgs1, hgs2]
  show (DelayedOutputCache.getItem s.outputs ⟨0, 0 + b⟩).drop a
      = DelayedOutputCache.getItem s.outputs ⟨a, b⟩
  rw [getItem_of_WF s hwf 0 (0 + b), getItem_of_WF s hwf a b]
  rw [List.drop_zero, Nat.sub_zero, List.drop_take]
  congr 1
  omega

/-- C1 witness: on a node with `[0, 3)` generated in chunks `[0, 2)` and
`[2, 3)`, rows `[1, 3)` of `acquire(3)` equal `get_slice(slice(1, 3))`. -/
theorem C1_acquire_witness :
    WF (⟨"x", 3, [⟨"x", 0, 2, [10, 11]⟩, ⟨"x", 2, 1, [12]⟩]⟩ : Operation Nat) ∧
    (Operation.acquire (fun l n => (List.range n).map (l + ·))
        (⟨"x", 3, [⟨"x", 0, 2, [10, 11]⟩, ⟨"x", 2, 1, [12]⟩]⟩ : Operation Nat)
        3 0 none).2.drop 1
      = (Operation.get_slice (fun l n => (List.range n).map (l + ·))
        (⟨"x", 3, [⟨"x", 0, 2, [10, 11]⟩, ⟨"x", 2, 1, [12]⟩]⟩ : Operation Nat)
        ⟨1, 3⟩).2 := by
  have hwf : WF (⟨"x", 3, [⟨"x", 0, 2, [10, 11]⟩, ⟨"x", 2, 1, [12]⟩]⟩
      : Operation Nat) := ⟨by simp [chunksFrom], by decide⟩
  exact ⟨hwf, (C1_acquire_restriction_eq_get_slice
    (fun l n => (List.range n).map (l + ·))
    (⟨"x", 3, [⟨"x", 0, 2, [10, 11]⟩, ⟨"x", 2, 1, [12]⟩]⟩ : Operation Nat)
    1 3 none hwf (by decide) (by decide) (by decide)).2.2⟩

/-- Evaluation of `tuple([p.observed for p in self.parents])`: succeeds with
the list of observed values when every parent has the attribute; hits the
first parent without it otherwise (Python raises `AttributeError` there). -/
def gatherObserved {β : Type} : List (Option β) → Option (List β)
  | [] => some []
  | none :: _ => none
  | some x :: rest => (gatherObserved rest).map (x :: ·)

/-- `ObservedMixin._inherit_observed`: a parent that carries an observed value
is a `some`, a parent without the attribute is a `none`; `op` is the node's
own operation restricted to the `data` field
(`self.operation({'data': observed})['data']`).  The source guards only
`len(self.parents) and hasattr(self.parents[0], 'observed')` before reading
`p.observed` of every parent. -/
def inherit_observed {β : Type} (parentsObserved : List (Option β))
    (op : List β → β) : Except ElfiError β :=
  match parentsObserved with
  | [] => .error .missingObservedError
  | none :: _ => .error .missingObservedError
  | some o0 :: rest =>
    match gatherObserved (some o0 :: rest) with
    | some vals => .ok (op vals)
    | none => .error .attributeError

/-- C7 (amended): with at least one parent and every parent carrying an
observed value, the node inherits `op` applied once to all parents' observed
values; with no parents, or with the FIRST parent lacking an observed value,
construction fails with the `MissingObservedError`
(`ValueError('There is no observed value to inherit')`); but when the first
parent carries one and a later parent lacks it, the failure is an
`AttributeError` from `p.observed`, not the `MissingObservedError`. -/
theorem C7_inherit_observed_cases {β : Type} (pobs : List (Option β))
    (op : List β → β) :
    (∀ vals, gatherObserved pobs = some vals → pobs ≠ [] →
      inherit_observed pobs op = .ok (op vals)) ∧
    (inherit_observed ([] : List (Option β)) op = .error .missingObservedError) ∧
    (∀ rest, pobs = none :: rest →
      inherit_observed pobs op = .error .missingObservedError) ∧
    (∀ o0 rest, pobs = some o0 :: rest → gatherObserved rest = none →
      inherit_observed pobs op = .error .attributeError) := by
  refine ⟨?_, rfl, ?_, ?_⟩
  · intro vals hg hne
    match pobs, hg with
    | [], _ => exact absurd rfl hne
    | none :: rest, hg => exact absurd hg (by simp [gatherObserved])
    | some o0 :: rest, hg =>
      simp only [inherit_observed, hg]
  · intro rest hrest
    subst hrest
    rfl
  · intro o0 rest hrest hg
    subst hrest
    simp [inherit_observed, gatherObserved, hg]

/-- C7 counterexample: first parent observed, second parent without an
observed value — the code fails with `AttributeError`, not with the
`MissingObservedError` the claim promises for every not-all-observed case. -/
theorem C7_missing_observed_counterexample :
    inherit_observed [some (1 : Nat), none] (fun vals => vals.sum)
      = .error .attributeError ∧
    inherit_observed [some (1 : Nat), none] (fun vals => vals.sum)
      ≠ .error .missingObservedError := by
  exact ⟨rfl, by decide⟩

/-- C7 witness: all-observed parents inherit the operation's value; an empty
parent list and a first parent without observed value give the
`MissingObservedError`. -/
theorem C7_inherit_observed_witness :
    inherit_observed [some (2 : Nat), some 3] (fun vals => vals.sum) = .ok 5 ∧
    inherit_observed ([] : List (Option Nat)) (fun vals => vals.sum)
      = .error .missingObservedError ∧
    inherit_observed [none, some (3 : Nat)] (fun vals => vals.sum)
      = .error .missingObservedError := by
  refine ⟨?_, ?_, ?_⟩
  · have h := (C7_inherit_observed_cases [some (2 : Nat), some 3]
      (fun vals => vals.sum)).1 [2, 3] (by decide) (by decide)
    simpa using h
  · exact (C7_inherit_observed_cases ([] : List (Option Nat))
      (fun vals => vals.sum)).2.1
  · exact (C7_inherit_observed_cases [none, some (3 : Nat)]
      (fun vals => vals.sum)).2.2.1 [some 3] rfl

/-- The input dict built by `Operation._create_input_dict`: the tuple of the
parents' data slices plus the chunk metadata `n` and `index`. -/
structure InputDict (α : Type) where
  data : List (List α)
  n : Nat
  index : Nat
deriving DecidableEq

/-- The `Constant` node's operation, `lambda input_dict: {'data': v}` with
`v = np.array(value, ndmin=1)` (modelled by its axis-0 rows): it returns the
stored value itself as every chunk's data, ignoring both the parents' data and
the chunk's sample count `n`. -/
def constant_operation {α : Type} (v : List α) (input_dict : InputDict α) :
    List α :=
  v

/-- `fixed_expand(n, fixed_value)` from `core.py`: repeats the value along a
new first axis — the broadcast across `n` samples that the spec describes for
`Constant` chunks (the function exists in the source but `Constant` does not
use it). -/
def fixed_expand {α : Type} (n : Nat) (fixed_value : List α) : List (List α) :=
  List.replicate n fixed_value

/-- C8 (code bug): the `Constant` operation takes no parents' live data — its
output is the same whatever the input dict — but it ignores the chunk's sample
count: for the constant `7` (stored as the one-row array `[7]`) and a chunk of
`n = 2` samples it returns data of first-axis length 1, not the broadcast
`fixed_expand 2 [7]` of first-axis length 2 that the spec (and the cache's
row-per-sample contract) requires. -/
theorem C8_constant_not_broadcast :
    constant_operation [7] (⟨[[5], [6]], 2, 0⟩ : InputDict Nat) = [7] ∧
    constant_operation [7] (⟨[], 9, 4⟩ : InputDict Nat) = [7] ∧
    (constant_operation [7] (⟨[[5], [6]], 2, 0⟩ : InputDict Nat)).length = 1 ∧
    (fixed_expand 2 [7] : List (List Nat)).length = 2 ∧ (1 : Nat) ≠ 2 := by
  exact ⟨rfl, rfl, rfl, rfl, by decide⟩

/-- `np.argsort(distances)`: the index list `0..len-1` sorted by distance
value (numpy leaves the order of ties unspecified; a stable sort is one
admissible realization). -/
def argsort (d : List ℚ) : List Nat :=
  List.insertionSort (fun i j => d.getD i 0 ≤ d.getD j 0) (List.range d.length)

/-- `Rejection.sample` from `methods.py`.  `draw k` stands for
`self._get_distances(k)`: the first `k` discrepancy values (already flattened,
as `ravel` leaves them) and every parameter node's first `k` rows, obtained
through `acquire`.  Quantile mode (`threshold=None`) simulates
`int(n / quantile)` draws, accepts the indices of the `n` smallest distances
and reports `distances[sorted_inds[n-1]]`; threshold mode accepts by the mask
`distances < threshold`. -/
def Rejection.sample {β : Type} [Inhabited β]
    (draw : Nat → List ℚ × List (List β)) (n : Nat) (quantile : ℚ)
    (threshold : Option ℚ) : Except ElfiError (List (List β) × ℚ) :=
  if quantile ≤ 0 ∨ 1 < quantile then .error .quantileError
  else
    let n_sim := if threshold.isNone then ⌊(n : ℚ) / quantile⌋₊ else n
    let distances := (draw n_sim).1
    let parameters := (draw n_sim).2
    match threshold with
    | none =>
      let sorted_inds := argsort distances
      let thr := distances.getD (sorted_inds.getD (n - 1) 0) 0
      let accepted := sorted_inds.take n
      .ok (parameters.map (fun p => accepted.map (fun i => p.getD i default)), thr)
    | some t =>
      .ok (parameters.map (fun p =>
        ((p.zip distances).filterMap (fun x => if x.2 < t then some x.1 else none))), t)

theorem map_getD_range (d : List ℚ) :
    (List.range d.length).map (fun i => d.getD i 0) = d := by
  apply List.ext_getElem
  · simp
  · intro i h1 h2
    rw [List.getElem_map, List.getElem_range]
    exact List.getD_eq_getElem d 0 h2

theorem getD_map_getD (l : List Nat) (d : List ℚ) (i : Nat) (h : i < l.length) :
    (l.map (fun j => d.getD j 0)).getD i 0 = d.getD (l.getD i 0) 0 := by
  induction l generalizing i with
  | nil => simp at h
  | cons x xs ih =>
    cases i with
    | zero => simp
    | succ k =>
      simp only [List.map_cons, List.getD_cons_succ]
      exact ih k (by simpa using h)

/-- Reading the distances back through `argsort` yields the sorted distance
list. -/
theorem map_getD_argsort (d : List ℚ) :
    (argsort d).map (fun i => d.getD i 0) = List.insertionSort (· ≤ ·) d := by
  haveI htot : IsTotal Nat (fun i j => d.getD i 0 ≤ d.getD j 0) :=
    ⟨fun a b => le_total _ _⟩
  haveI htrans : IsTrans Nat (fun i j => d.getD i 0 ≤ d.getD j 0) :=
    ⟨fun a b c hab hbc => le_trans hab hbc⟩
  have hperm : ((argsort d).map (fun i => d.getD i 0)).Perm
      (List.insertionSort (fun x y : ℚ => x ≤ y) d) := by
    have p1 : ((argsort d).map (fun i => d.getD i 0)).Perm
        ((List.range d.length).map (fun i => d.getD i 0)) :=
      (List.perm_insertionSort _ _).map _
    rw [map_getD_range d] at p1
    exact p1.trans (List.perm_insertionSort _ _).symm
  have hsort1 : List.Sorted (fun x y : ℚ => x ≤ y)
      ((argsort d).map (fun i => d.getD i 0)) :=
    List.Pairwise.map _ (fun a b h => h)
      (List.sorted_insertionSort _ (List.range d.length))
  have hsort2 : List.Sorted (fun x y : ℚ => x ≤ y)
      (List.insertionSort (fun x y : ℚ => x ≤ y) d) :=
    List.sorted_insertionSort _ d
  exact List.eq_of_perm_of_sorted hperm hsort1 hsort2

/-- C9: in quantile mode with sample count `n ≥ 1` and `0 < q ≤ 1`, the
rejection sampler draws `⌊n/q⌋` discrepancies, accepts exactly `n` index
positions whose distances are the `n` smallest (the head of the sorted
distance list), returns each parameter restricted to those same positions, and
reports as threshold the `n`-th smallest of the `⌊n/q⌋` simulated
distances. -/
theorem C9_rejection_quantile {β : Type} [Inhabited β]
    (draw : Nat → List ℚ × List (List β)) (n : Nat) (q : ℚ)
    (hq0 : 0 < q) (hq1 : q ≤ 1) (hn : 1 ≤ n)
    (hlen : ((draw ⌊(n : ℚ) / q⌋₊).1).length = ⌊(n : ℚ) / q⌋₊) :
    Rejection.sample draw n q none
      = .ok (((draw ⌊(n : ℚ) / q⌋₊).2).map
              (fun p => ((argsort ((draw ⌊(n : ℚ) / q⌋₊).1)).take n).map
                (fun i => p.getD i default)),
             (List.insertionSort (· ≤ ·) ((draw ⌊(n : ℚ) / q⌋₊).1)).getD (n - 1) 0) ∧
    ((argsort ((draw ⌊(n : ℚ) / q⌋₊).1)).take n).length = n ∧
    ((argsort ((draw ⌊(n : ℚ) / q⌋₊).1)).take n).map
        (fun i => ((draw ⌊(n : ℚ) / q⌋₊).1).getD i 0)
      = (List.insertionSort (· ≤ ·) ((draw ⌊(n : ℚ) / q⌋₊).1)).take n := by
  have hq' : ¬(q ≤ 0 ∨ 1 < q) := by
    push_neg
    exact ⟨hq0, hq1⟩
  have hnsim : n ≤ ⌊(n : ℚ) / q⌋₊ := by
    apply Nat.le_floor
    rw [le_div_iff₀ hq0]
    calc (n : ℚ) * q ≤ (n : ℚ) * 1 :=
          mul_le_mul_of_nonneg_left hq1 (by positivity)
      _ = (n : ℚ) := mul_one _
  set d := (draw ⌊(n : ℚ) / q⌋₊).1 with hd
  have hlenargsort : (argsort d).length = d.length := by
    unfold argsort
    rw [List.length_insertionSort, List.length_range]
  have hidx : n - 1 < (argsort d).length := by
    rw [hlenargsort, hlen]
    omega
  have hthr : d.getD ((argsort d).getD (n - 1) 0) 0
      = (List.insertionSort (· ≤ ·) d).getD (n - 1) 0 := by
    have h2 : ((argsort d).map (fun j => d.getD j 0)).getD (n - 1) 0
        = d.getD ((argsort d).getD (n - 1) 0) 0 := getD_map_getD _ d _ hidx
    rw [← h2, map_getD_argsort d]
  refine ⟨?_, ?_, ?_⟩
  · show Rejection.sample draw n q none = _
    unfold Rejection.sample
    rw [if_neg hq']
    show Except.ok
        (((draw ⌊(n : ℚ) / q⌋₊).2).map
          (fun p => ((argsort ((draw ⌊(n : ℚ) / q⌋₊).1)).take n).map
            (fun i => p.getD i default)),
         ((draw ⌊(n : ℚ) / q⌋₊).1).getD
           ((argsort ((draw ⌊(n : ℚ) / q⌋₊).1)).getD (n - 1) 0) 0) = _
    rw [← hd, hthr]
  · rw [List.length_take, hlenargsort, hlen]
    omega
  · rw [List.map_take, map_getD_argsort d]

/-- C9 witness: `n = 1`, `q = 1` on a concrete draw function — the accepted
index list has length exactly `n = 1`. -/
theorem C9_rejection_witness :
    ((argsort ((fun k => (List.replicate k (0 : ℚ), [List.replicate k (0 : ℚ)]))
        ⌊(1 : ℚ) / 1⌋₊).1).take 1).length = 1 := by
  exact (C9_rejection_quantile
    (fun k => (List.replicate k (0 : ℚ), [List.replicate k (0 : ℚ)]))
    1 1 (by norm_num) (by norm_num) (by norm_num) (by simp)).2.1

/-- The object graph of `core.py`'s `Node` class, nodes named by numbers:
`parents v` embeds `v.parents` (an ordered list — position is the positional
argument order) and `children v` embeds `v.children` (a Python set, modelled
as a duplicate-free list with insert-if-absent and erase). -/
structure NodeGraph where
  parents : Nat → List Nat
  children : Nat → List Nat

/-- Python `set.add`: insert if absent. -/
def setAdd (x : Nat) (l : List Nat) : List Nat :=
  if x ∈ l then l else l ++ [x]

/-- `Node.add_parent(node, index=None)`: insert `p` into `c.parents` at
`index` (append when `None`; Python's `list.insert` clamps an over-large index
to the end) and add `c` to `p.children`. -/
def Node.add_parent (g : NodeGraph) (c p : Nat) (index : Option Nat) : NodeGraph :=
  let i := min (index.getD (g.parents c).length) (g.parents c).length
  { parents := Function.update g.parents c ((g.parents c).insertIdx i p)
    children := Function.update g.children p (setAdd c (g.children p)) }

/-- `Node.add_parents(nodes)`: `add_parent` on each node in order. -/
def Node.add_parents (g : NodeGraph) (c : Nat) (ns : List Nat) : NodeGraph :=
  ns.foldl (fun g2 p => Node.add_parent g2 c p none) g

/-- `Node.add_child(node)`: `node.add_parent(self)`. -/
def Node.add_child (g : NodeGraph) (p c : Nat) : NodeGraph :=
  Node.add_parent g c p none

/-- The `for i, p in enumerate(self.parents): if p == parent_or_index` search
of `Node.remove_parent`: index of the first occurrence. -/
def findParentIdx (p : Nat) : List Nat → Option Nat
  | [] => none
  | q :: rest => if q = p then some 0 else (findParentIdx p rest).map (· + 1)

/-- `Node.remove_parent(index)` with an integer index: read
`parent = self.parents[index]` (out of range would be a Python `IndexError`,
here `none`), delete that position, and `parent.children.remove(self)`
(Python's `set.remove`; under edge symmetry the element is present, which is
the only case the development relies on). -/
def Node.remove_parent_at (g : NodeGraph) (c i : Nat) : Option NodeGraph :=
  match (g.parents c).get? i with
  | none => none
  | some p => some
      { parents := Function.update g.parents c ((g.parents c).eraseIdx i)
        children := Function.update g.children p ((g.children p).erase c) }

/-- `Node.remove_parent(parent)` with a node argument: locate the first
occurrence (the source raises "Could not find a parent" when there is none)
and remove that position; the removed index is returned as in the source. -/
def Node.remove_parent (g : NodeGraph) (c p : Nat) : Option (NodeGraph × Nat) :=
  match findParentIdx p (g.parents c) with
  | none => none
  | some i => (Node.remove_parent_at g c i).map (fun g2 => (g2, i))

/-- The `for i in range(len(self.parents)): self.remove_parent(0)` phase of
`Node.remove`: the iteration count is fixed up front. -/
def Node.removeParentsLoop (x : Nat) : Nat → NodeGraph → Option NodeGraph
  | 0, g => some g
  | k + 1, g =>
    match Node.remove_parent_at g x 0 with
    | none => none
    | some g2 => Node.removeParentsLoop x k g2

/-- The `for c in self.children.copy(): c.remove_parent(self)` phase of
`Node.remove`. -/
def Node.removeChildrenLoop (x : Nat) : List Nat → NodeGraph → Option NodeGraph
  | [], g => some g
  | c :: cs, g =>
    match Node.remove_parent g c x with
    | none => none
    | some gi => Node.removeChildrenLoop x cs gi.1

/-- `Node.remove(keep_parents, keep_children)`. -/
def Node.remove (g : NodeGraph) (x : Nat) (keep_parents keep_children : Bool) :
    Option NodeGraph :=
  let step1 := if keep_parents then some g
    else Node.removeParentsLoop x (g.parents x).length g
  step1.bind (fun g1 => if keep_children then some g1
    else Node.removeChildrenLoop x (g1.children x) g1)

/-- The `transfer_parents` removal loop of `Node.replace_by`:
`for p in parents: self.remove_parent(p)` over the copied parent list. -/
def Node.removeParentsList (x : Nat) : List Nat → NodeGraph → Option NodeGraph
  | [], g => some g
  | p :: ps, g =>
    match Node.remove_parent g x p with
    | none => none
    | some gi => Node.removeParentsList x ps gi.1

/-- The `transfer_children` loop of `Node.replace_by`:
`index = c.remove_parent(self); c.add_parent(node, index=index)` for each
child in the copied children set. -/
def Node.transferChildrenLoop (x y : Nat) : List Nat → NodeGraph → Option NodeGraph
  | [], g => some g
  | c :: cs, g =>
    match Node.remove_parent g c x with
    | none => none
    | some gi => Node.transferChildrenLoop x y cs
        (Node.add_parent gi.1 c y (some gi.2))

/-- `Node.replace_by(node, transfer_parents, transfer_children)`. -/
def Node.replace_by (g : NodeGraph) (x y : Nat)
    (transfer_parents transfer_children : Bool) : Option NodeGraph :=
  let step1 := if transfer_parents then
      (Node.removeParentsList x (g.parents x) g).map
        (fun g1 => Node.add_parents g1 y (g.parents x))
    else some g
  step1.bind (fun g1 => if transfer_children then
      Node.transferChildrenLoop x y (g1.children x) g1
    else some g1)

/-- Edge symmetry: `p` is a parent of `c` iff `c` is a child of `p`. -/
def EdgeSymm (g : NodeGraph) : Prop :=
  ∀ p c, p ∈ g.parents c ↔ c ∈ g.children p

/-- The graph invariant that the structural operations actually maintain: edge
symmetry together with duplicate-freeness of every parent list and children
set. -/
def GraphInv (g : NodeGraph) : Prop :=
  EdgeSymm g ∧ (∀ c, (g.parents c).Nodup) ∧ (∀ p, (g.children p).Nodup)

theorem mem_setAdd (x : Nat) (l : List Nat) (e : Nat) :
    e ∈ setAdd x l ↔ e = x ∨ e ∈ l := by
  unfold setAdd
  split_ifs with h
  · constructor
    · exact fun he => Or.inr he
    · rintro (rfl | he)
      · exact h
      · exact he
  · simp [or_comm]

theorem nodup_setAdd (x : Nat) (l : List Nat) (h : l.Nodup) : (setAdd x l).Nodup := by
  unfold setAdd
  split_ifs with hx
  · exact h
  · simp [List.nodup_append, h, hx]

theorem parents_add_parent_self_eq (g : NodeGraph) (c p : Nat) (i : Option Nat) :
    (Node.add_parent g c p i).parents c
      = (g.parents c).insertIdx
          (min (i.getD (g.parents c).length) (g.parents c).length) p := by
  simp only [Node.add_parent]
  rw [Function.update_same]

theorem children_add_parent_self_eq (g : NodeGraph) (c p : Nat) (i : Option Nat) :
    (Node.add_parent g c p i).children p = setAdd c (g.children p) := by
  simp only [Node.add_parent]
  rw [Function.update_same]

theorem mem_parents_add_parent_self (g : NodeGraph) (c p : Nat) (i : Option Nat)
    (q : Nat) :
    q ∈ (Node.add_parent g c p i).parents c ↔ q = p ∨ q ∈ g.parents c := by
  rw [parents_add_parent_self_eq]
  exact List.mem_insertIdx (min_le_right _ _)

theorem parents_add_parent_other (g : NodeGraph) (c p : Nat) (i : Option Nat)
    (d : Nat) (hd : d ≠ c) :
    (Node.add_parent g c p i).parents d = g.parents d := by
  simp only [Node.add_parent]
  exact Function.update_noteq hd _ _

theorem mem_children_add_parent_self (g : NodeGraph) (c p : Nat) (i : Option Nat)
    (e : Nat) :
    e ∈ (Node.add_parent g c p i).children p ↔ e = c ∨ e ∈ g.children p := by
  rw [children_add_parent_self_eq]
  exact mem_setAdd _ _ _

theorem children_add_parent_other (g : NodeGraph) (c p : Nat) (i : Option Nat)
    (r : Nat) (hr : r ≠ p) :
    (Node.add_parent g c p i).children r = g.children r := by
  simp only [Node.add_parent]
  exact Function.update_noteq hr _ _

/-- `add_parent` of a node that is not already a parent preserves the graph
invariant. -/
theorem GraphInv_add_parent (g : NodeGraph) (c p : Nat) (i : Option Nat)
    (hg : GraphInv g) (hp : p ∉ g.parents c) :
    GraphInv (Node.add_parent g c p i) := by
  obtain ⟨hsym, hndp, hndc⟩ := hg
  refine ⟨?_, ?_, ?_⟩
  · intro r d
    by_cases hdc : d = c <;> by_cases hrp : r = p
    · rw [hdc, hrp, mem_parents_add_parent_self, mem_children_add_parent_self]
      simp
    · rw [hdc, mem_parents_add_parent_self,
        children_add_parent_other g c p i r hrp, ← hsym r c]
      simp [hrp]
    · rw [hrp, parents_add_parent_other g c p i d hdc,
        mem_children_add_parent_self, ← hsym p d]
      constructor
      · exact fun h => Or.inr h
      · rintro (h | h)
        · exact absurd h hdc
        · exact h
    · rw [parents_add_parent_other g c p i d hdc,
        children_add_parent_other g c p i r hrp]
      exact hsym r d
  · intro d
    by_cases hdc : d = c
    · rw [hdc, parents_add_parent_self_eq]
      have hperm := List.perm_insertIdx p (g.parents c)
        (min_le_right (Option.getD i (g.parents c).length) (g.parents c).length)
      exact hperm.symm.nodup (by simp [List.nodup_cons, hp, hndp c])
    · rw [parents_add_parent_other g c p i d hdc]
      exact hndp d
  · intro r
    by_cases hrp : r = p
    · rw [hrp, children_add_parent_self_eq]
      exact nodup_setAdd _ _ (hndc p)
    · rw [children_add_parent_other g c p i r hrp]
      exact hndc r

theorem findParentIdx_get (p : Nat) (l : List Nat) (i : Nat)
    (h : findParentIdx p l = some i) : l.get? i = some p := by
  induction l generalizing i with
  | nil => simp [findParentIdx] at h
  | cons q rest ih =>
    by_cases hq : q = p
    · simp only [findParentIdx, if_pos hq, Option.some.injEq] at h
      subst h
      simpa using hq
    · simp only [findParentIdx, if_neg hq, Option.map_eq_some'] at h
      obtain ⟨j, hj, hji⟩ := h
      subst hji
      simpa using ih j hj

theorem findParentIdx_of_mem (p : Nat) (l : List Nat) (h : p ∈ l) :
    ∃ i, findParentIdx p l = some i := by
  induction l with
  | nil => simp at h
  | cons q rest ih =>
    by_cases hq : q = p
    · exact ⟨0, by simp [findParentIdx, hq]⟩
    · have hmem : p ∈ rest := by
        rcases List.mem_cons.mp h with h1 | h1
        · exact absurd h1.symm hq
        · exact h1
      obtain ⟨j, hj⟩ := ih hmem
      exact ⟨j + 1, by simp [findParentIdx, hq, hj]⟩

theorem mem_eraseIdx_nodup (l : List Nat) (i p q : Nat) (hnd : l.Nodup)
    (hget : l.get? i = some p) :
    q ∈ l.eraseIdx i ↔ (q ∈ l ∧ q ≠ p) := by
  induction l generalizing i with
  | nil => simp at hget
  | cons x xs ih =>
    have hx : x ∉ xs := (List.nodup_cons.mp hnd).1
    have hnxs : xs.Nodup := (List.nodup_cons.mp hnd).2
    cases i with
    | zero =>
      simp only [List.get?] at hget
      injection hget with hxp
      subst hxp
      simp only [List.eraseIdx_cons_zero, List.mem_cons]
      constructor
      · intro hq
        refine ⟨Or.inr hq, ?_⟩
        intro hqx
        rw [hqx] at hq
        exact hx hq
      · rintro ⟨h1 | h1, h2⟩
        · exact absurd h1 h2
        · exact h1
    | succ k =>
      simp only [List.get?] at hget
      have hpxs : p ∈ xs := by
        rcases List.get?_eq_some.mp hget with ⟨hk, hget2⟩
        rw [← hget2]
        exact List.get_mem _ _ _
      have hxp : x ≠ p := fun hxe => hx (hxe ▸ hpxs)
      simp only [List.eraseIdx_cons_succ, List.mem_cons, ih k hnxs hget]
      constructor
      · rintro (h1 | ⟨h1, h2⟩)
        · exact ⟨Or.inl h1, h1 ▸ hxp⟩
        · exact ⟨Or.inr h1, h2⟩
      · rintro ⟨h1 | h1, h2⟩
        · exact Or.inl h1
        · exact Or.inr ⟨h1, h2⟩

theorem remove_parent_at_eq (g : NodeGraph) (c i p : Nat)
    (hget : (g.parents c).get? i = some p) :
    Node.remove_parent_at g c i = some
      { parents := Function.update g.parents c ((g.parents c).eraseIdx i)
        children := Function.update g.children p ((g.children p).erase c) } := by
  unfold Node.remove_parent_at
  rw [hget]

/-- The record produced by a parent-edge removal keeps the graph invariant. -/
theorem GraphInv_remove_record (g : NodeGraph) (c i p : Nat) (hg : GraphInv g)
    (hget : (g.parents c).get? i = some p) :
    GraphInv
      { parents := Function.update g.parents c ((g.parents c).eraseIdx i)
        children := Function.update g.children p ((g.children p).erase c) } := by
  obtain ⟨hsym, hndp, hndc⟩ := hg
  refine ⟨?_, ?_, ?_⟩
  · intro r d
    show r ∈ Function.update g.parents c ((g.parents c).eraseIdx i) d
      ↔ d ∈ Function.update g.children p ((g.children p).erase c) r
    by_cases hdc : d = c <;> by_cases hrp : r = p
    · rw [hdc, hrp, Function.update_same, Function.update_same,
        mem_eraseIdx_nodup _ i p p (hndp c) hget,
        (hndc p).mem_erase_iff]
      simp
    · rw [hdc, Function.update_same, Function.update_noteq hrp,
        mem_eraseIdx_nodup _ i p r (hndp c) hget, ← hsym r c]
      simp [hrp]
    · rw [hrp, Function.update_noteq hdc, Function.update_same,
        (hndc p).mem_erase_iff, ← hsym p d]
      simp [hdc]
    · rw [Function.update_noteq hdc, Function.update_noteq hrp]
      exact hsym r d
  · intro d
    by_cases hdc : d = c
    · rw [hdc]
      show (Function.update g.parents c ((g.parents c).eraseIdx i) c).Nodup
      rw [Function.update_same]
      exact (List.eraseIdx_sublist _ i).nodup (hndp c)
    · show (Function.update g.parents c ((g.parents c).eraseIdx i) d).Nodup
      rw [Function.update_noteq hdc]
      exact hndp d
  · intro r
    by_cases hrp : r = p
    · rw [hrp]
      show (Function.update g.children p ((g.children p).erase c) p).Nodup
      rw [Function.update_same]
      exact (List.erase_sublist _ _).nodup (hndc p)
    · show (Function.update g.children p ((g.children p).erase c) r).Nodup
      rw [Function.update_noteq hrp]
      exact hndc r

theorem GraphInv_remove_parent_at (g : NodeGraph) (c i : Nat) (g2 : NodeGraph)
    (hg : GraphInv g) (h : Node.remove_parent_at g c i = some g2) :
    GraphInv g2 := by
  cases hget : (g.parents c).get? i with
  | none =>
    unfold Node.remove_parent_at at h
    rw [hget] at h
    exact absurd h (by simp)
  | some p =>
    rw [remove_parent_at_eq g c i p hget] at h
    injection h with h2
    rw [← h2]
    exact GraphInv_remove_record g c i p hg hget

theorem remove_parent_eq_of_find (g : NodeGraph) (c p j : Nat)
    (hfind : findParentIdx p (g.parents c) = some j) :
    Node.remove_parent g c p
      = Option.map (fun g2 => (g2, j)) (Node.remove_parent_at g c j) := by
  unfold Node.remove_parent
  rw [hfind]

/-- `remove_parent` with a node argument: full characterization on success. -/
theorem remove_parent_some_spec (g : NodeGraph) (c p : Nat) (g2 : NodeGraph)
    (i : Nat) (h : Node.remove_parent g c p = some (g2, i)) :
    (g.parents c).get? i = some p ∧
    g2.parents = Function.update g.parents c ((g.parents c).eraseIdx i) ∧
    g2.children = Function.update g.children p ((g.children p).erase c) := by
  cases hfind : findParentIdx p (g.parents c) with
  | none =>
    unfold Node.remove_parent at h
    rw [hfind] at h
    exact absurd h (by simp)
  | some j =>
    rw [remove_parent_eq_of_find g c p j hfind] at h
    have hget := findParentIdx_get p (g.parents c) j hfind
    rw [remove_parent_at_eq g c j p hget] at h
    simp only [Option.map_some', Option.some.injEq, Prod.mk.injEq] at h
    obtain ⟨hg2, hij⟩ := h
    subst hij
    rw [← hg2]
    exact ⟨hget, rfl, rfl⟩

theorem GraphInv_remove_parent (g : NodeGraph) (c p : Nat) (g2 : NodeGraph)
    (i : Nat) (hg : GraphInv g) (h : Node.remove_parent g c p = some (g2, i)) :
    GraphInv g2 := by
  obtain ⟨hget, hpar, hchi⟩ := remove_parent_some_spec g c p g2 i h
  have := GraphInv_remove_record g c i p hg hget
  cases g2 with
  | mk pa ch =>
    simp only at hpar hchi
    rw [hpar, hchi]
    exact this

theorem remove_parent_of_mem (g : NodeGraph) (c p : Nat) (hp : p ∈ g.parents c) :
    ∃ g2 i, Node.remove_parent g c p = some (g2, i) := by
  obtain ⟨j, hj⟩ := findParentIdx_of_mem p (g.parents c) hp
  have hget := findParentIdx_get p (g.parents c) j hj
  refine ⟨{ parents := Function.update g.parents c ((g.parents c).eraseIdx j)
            children := Function.update g.children p ((g.children p).erase c) },
    j, ?_⟩
  rw [remove_parent_eq_of_find g c p j hj, remove_parent_at_eq g c j p hget]
  rfl

/-- Removing position `i` (holding `x`) and re-inserting `y` there replaces
the unique occurrence of `x` in place. -/
theorem insertIdx_eraseIdx_map (l : List Nat) (i x y : Nat) (hnd : l.Nodup)
    (hget : l.get? i = some x) :
    (l.eraseIdx i).insertIdx i y = l.map (fun q => if q = x then y else q) := by
  induction l generalizing i with
  | nil => simp at hget
  | cons z zs ih =>
    have hz : z ∉ zs := (List.nodup_cons.mp hnd).1
    have hnzs : zs.Nodup := (List.nodup_cons.mp hnd).2
    cases i with
    | zero =>
      simp only [List.get?] at hget
      injection hget with hzx
      subst hzx
      rw [List.eraseIdx_cons_zero, List.insertIdx_zero]
      have hmap : zs.map (fun q => if q = z then y else q) = zs := by
        have h1 : ∀ q ∈ zs, (if q = z then y else q) = id q := by
          intro q hq
          have : q ≠ z := fun he => hz (he ▸ hq)
          simp [this]
        rw [List.map_congr_left h1, List.map_id]
      simp [hmap]
    | succ k =>
      simp only [List.get?] at hget
      have hxzs : x ∈ zs := by
        rcases List.get?_eq_some.mp hget with ⟨hk, hget2⟩
        rw [← hget2]
        exact List.get_mem _ _ _
      have hzx : z ≠ x := fun he => hz (he ▸ hxzs)
      rw [List.eraseIdx_cons_succ, List.insertIdx_succ_cons, ih k hnzs hget]
      simp [hzx]

theorem GraphInv_removeParentsLoop (x : Nat) :
    ∀ k (g g2 : NodeGraph), GraphInv g →
      Node.removeParentsLoop x k g = some g2 → GraphInv g2 := by
  intro k
  induction k with
  | zero =>
    intro g g2 hg h
    simp only [Node.removeParentsLoop, Option.some.injEq] at h
    rw [← h]
    exact hg
  | succ m ih =>
    intro g g2 hg h
    simp only [Node.removeParentsLoop] at h
    cases hrp : Node.remove_parent_at g x 0 with
    | none =>
      rw [hrp] at h
      exact absurd h (by simp)
    | some g1 =>
      rw [hrp] at h
      exact ih g1 g2 (GraphInv_remove_parent_at g x 0 g1 hg hrp) h

theorem GraphInv_removeChildrenLoop (x : Nat) :
    ∀ cs (g g2 : NodeGraph), GraphInv g →
      Node.removeChildrenLoop x cs g = some g2 → GraphInv g2 := by
  intro cs
  induction cs with
  | nil =>
    intro g g2 hg h
    simp only [Node.removeChildrenLoop, Option.some.injEq] at h
    rw [← h]
    exact hg
  | cons c rest ih =>
    intro g g2 hg h
    simp only [Node.removeChildrenLoop] at h
    cases hrp : Node.remove_parent g c x with
    | none =>
      rw [hrp] at h
      exact absurd h (by simp)
    | some gi =>
      rw [hrp] at h
      exact ih gi.1 g2 (GraphInv_remove_parent g c x gi.1 gi.2 hg
        (by rw [hrp])) h

theorem GraphInv_remove (g : NodeGraph) (x : Nat) (kp kc : Bool)
    (g2 : NodeGraph) (hg : GraphInv g) (h : Node.remove g x kp kc = some g2) :
    GraphInv g2 := by
  unfold Node.remove at h
  cases hs1 : (if kp then some g
      else Node.removeParentsLoop x (g.parents x).length g) with
  | none =>
    rw [hs1] at h
    exact absurd h (by simp)
  | some g1 =>
    rw [hs1] at h
    have hg1 : GraphInv g1 := by
      by_cases hkp : kp
      · rw [if_pos hkp] at hs1
        injection hs1 with he
        rw [← he]
        exact hg
      · rw [if_neg hkp] at hs1
        exact GraphInv_removeParentsLoop x _ g g1 hg hs1
    simp only [Option.some_bind] at h
    by_cases hkc : kc
    · rw [if_pos hkc, Option.some.injEq] at h
      rw [← h]
      exact hg1
    · rw [if_neg hkc] at h
      exact GraphInv_removeChildrenLoop x _ g1 g2 hg1 h

/-- `add_parents` of fresh, duplicate-free nodes: appends them in order to the
parent list, adds `c` to each of their children sets, touches nothing else. -/
theorem add_parents_spec (c : Nat) :
    ∀ ns (g : NodeGraph), GraphInv g → ns.Nodup →
      (∀ p ∈ ns, p ∉ g.parents c) →
      GraphInv (Node.add_parents g c ns) ∧
      (Node.add_parents g c ns).parents c = g.parents c ++ ns ∧
      (∀ d, d ≠ c → (Node.add_parents g c ns).parents d = g.parents d) ∧
      (∀ r, r ∉ ns → (Node.add_parents g c ns).children r = g.children r) ∧
      (∀ r e, e ∈ (Node.add_parents g c ns).children r ↔
        (e ∈ g.children r ∨ (e = c ∧ r ∈ ns))) := by
  intro ns
  induction ns with
  | nil =>
    intro g hg _ _
    refine ⟨hg, by simp [Node.add_parents], fun d _ => rfl, fun r _ => rfl, ?_⟩
    intro r e
    simp [Node.add_parents]
  | cons p rest ih =>
    intro g hg hnd hfresh
    have hp : p ∉ g.parents c := hfresh p (List.mem_cons_self p rest)
    have hprest : p ∉ rest := (List.nodup_cons.mp hnd).1
    have hg1 : GraphInv (Node.add_parent g c p none) :=
      GraphInv_add_parent g c p none hg hp
    have hpar1 : (Node.add_parent g c p none).parents c = g.parents c ++ [p] := by
      rw [parents_add_parent_self_eq]
      simp [List.insertIdx_length_self]
    have hrest_fresh : ∀ q ∈ rest, q ∉ (Node.add_parent g c p none).parents c := by
      intro q hq
      rw [hpar1]
      intro hmem
      rcases List.mem_append.mp hmem with h1 | h1
      · exact hfresh q (List.mem_cons_of_mem p hq) h1
      · have hqp : q = p := by simpa using h1
        exact hprest (hqp ▸ hq)
    have hfold : Node.add_parents g c (p :: rest)
        = Node.add_parents (Node.add_parent g c p none) c rest := by
      simp [Node.add_parents]
    obtain ⟨ih1, ih2, ih3, ih4, ih5⟩ :=
      ih (Node.add_parent g c p none) hg1 (List.nodup_cons.mp hnd).2 hrest_fresh
    refine ⟨by rw [hfold]; exact ih1, ?_, ?_, ?_, ?_⟩
    · rw [hfold, ih2, hpar1]
      simp
    · intro d hd
      rw [hfold, ih3 d hd, parents_add_parent_other g c p none d hd]
    · intro r hr
      have hrp : r ≠ p := by
        intro he
        exact hr (he ▸ List.mem_cons_self p rest)
      have hrrest : r ∉ rest := fun hmem => hr (List.mem_cons_of_mem p hmem)
      rw [hfold, ih4 r hrrest, children_add_parent_other g c p none r hrp]
    · intro r e
      rw [hfold, ih5 r e]
      by_cases hrp : r = p
      · rw [hrp, mem_children_add_parent_self]
        simp only [List.mem_cons]
        tauto
      · rw [children_add_parent_other g c p none r hrp]
        simp only [List.mem_cons]
        tauto

/-- The parent-removal loop of `replace_by`'s `transfer_parents` phase:
removes each listed parent edge of `x` once. -/
theorem removeParentsList_spec (x : Nat) :
    ∀ ps (g : NodeGraph), GraphInv g → ps.Nodup →
      (∀ p ∈ ps, p ∈ g.parents x) →
      ∃ g2, Node.removeParentsList x ps g = some g2 ∧ GraphInv g2 ∧
        (∀ q, q ∈ g2.parents x ↔ (q ∈ g.parents x ∧ q ∉ ps)) ∧
        (∀ d, d ≠ x → g2.parents d = g.parents d) ∧
        (∀ r e, e ∈ g2.children r ↔ (e ∈ g.children r ∧ ¬(e = x ∧ r ∈ ps))) := by
  intro ps
  induction ps with
  | nil =>
    intro g hg _ _
    exact ⟨g, rfl, hg, by simp, fun d _ => rfl, by simp⟩
  | cons p rest ih =>
    intro g hg hnd hmem
    have hp : p ∈ g.parents x := hmem p (List.mem_cons_self p rest)
    obtain ⟨g1, i, hrp⟩ := remove_parent_of_mem g x p hp
    obtain ⟨hget, hpar, hchi⟩ := remove_parent_some_spec g x p g1 i hrp
    have hg1 : GraphInv g1 := GraphInv_remove_parent g x p g1 i hg hrp
    have hmem1 : ∀ q, q ∈ g1.parents x ↔ (q ∈ g.parents x ∧ q ≠ p) := by
      intro q
      rw [hpar, Function.update_same]
      exact mem_eraseIdx_nodup _ i p q (hg.2.1 x) hget
    have hrest : ∀ q ∈ rest, q ∈ g1.parents x := by
      intro q hq
      rw [hmem1]
      exact ⟨hmem q (List.mem_cons_of_mem p hq),
        fun he => (List.nodup_cons.mp hnd).1 (he ▸ hq)⟩
    obtain ⟨g2, hloop, hg2, h2mem, h2frame, h2chi⟩ :=
      ih g1 hg1 (List.nodup_cons.mp hnd).2 hrest
    refine ⟨g2, ?_, hg2, ?_, ?_, ?_⟩
    · simp only [Node.removeParentsList]
      rw [hrp]
      exact hloop
    · intro q
      rw [h2mem q, hmem1 q]
      simp only [List.mem_cons]
      tauto
    · intro d hd
      rw [h2frame d hd, hpar, Function.update_noteq hd]
    · intro r e
      have hch1 : ∀ e2, e2 ∈ g1.children r
          ↔ (e2 ∈ g.children r ∧ ¬(e2 = x ∧ r = p)) := by
        intro e2
        rw [hchi]
        by_cases hr : r = p
        · rw [hr, Function.update_same, (hg.2.2 p).mem_erase_iff]
          tauto
        · rw [Function.update_noteq hr]
          tauto
      rw [h2chi r e, hch1 e]
      simp only [List.mem_cons]
      tauto

/-- The `transfer_children` loop of `replace_by`: each listed child of `x` has
`x` replaced by `y` at the exact position `x` occupied; the children sets move
accordingly. -/
theorem transferChildrenLoop_spec (x y : Nat) (hxy : x ≠ y) :
    ∀ cs (g : NodeGraph), GraphInv g → cs.Nodup →
      (∀ c ∈ cs, x ∈ g.parents c) → (∀ c ∈ cs, y ∉ g.parents c) →
      ∃ g2, Node.transferChildrenLoop x y cs g = some g2 ∧ GraphInv g2 ∧
        (∀ c ∈ cs, g2.parents c
          = (g.parents c).map (fun q => if q = x then y else q)) ∧
        (∀ d, d ∉ cs → g2.parents d = g.parents d) ∧
        (∀ e, e ∈ g2.children x ↔ (e ∈ g.children x ∧ e ∉ cs)) ∧
        (∀ e, e ∈ g2.children y ↔ (e ∈ g.children y ∨ e ∈ cs)) ∧
        (∀ r, r ≠ x → r ≠ y → g2.children r = g.children r) := by
  intro cs
  induction cs with
  | nil =>
    intro g hg _ _ _
    exact ⟨g, rfl, hg, by simp, fun d _ => rfl, by simp, by simp,
      fun r _ _ => rfl⟩
  | cons c rest ih =>
    intro g hg hnd hx hy
    have hxc : x ∈ g.parents c := hx c (List.mem_cons_self c rest)
    have hyc : y ∉ g.parents c := hy c (List.mem_cons_self c rest)
    have hcrest : c ∉ rest := (List.nodup_cons.mp hnd).1
    obtain ⟨g1, i, hrp⟩ := remove_parent_of_mem g c x hxc
    obtain ⟨hget, hpar, hchi⟩ := remove_parent_some_spec g c x g1 i hrp
    have hg1 : GraphInv g1 := GraphInv_remove_parent g c x g1 i hg hrp
    have hilt : i < (g.parents c).length := by
      rcases List.get?_eq_some.mp hget with ⟨h1, _⟩
      exact h1
    have hp1c : g1.parents c = (g.parents c).eraseIdx i := by
      rw [hpar, Function.update_same]
    have hynew : y ∉ g1.parents c := by
      rw [hp1c]
      intro hmem
      exact hyc (List.Sublist.mem hmem (List.eraseIdx_sublist _ i))
    have hg2' : GraphInv (Node.add_parent g1 c y (some i)) :=
      GraphInv_add_parent g1 c y (some i) hg1 hynew
    have hlen1 : (g1.parents c).length = (g.parents c).length - 1 := by
      rw [hp1c, List.length_eraseIdx]
      simp [hilt]
    have hmin : min i (g1.parents c).length = i := by
      rw [hlen1]
      omega
    have hpc : (Node.add_parent g1 c y (some i)).parents c
        = (g.parents c).map (fun q => if q = x then y else q) := by
      rw [parents_add_parent_self_eq]
      rw [show Option.getD (some i) (g1.parents c).length = i from rfl]
      rw [hmin, hp1c]
      exact insertIdx_eraseIdx_map (g.parents c) i x y (hg.2.1 c) hget
    have hstep_parents_other : ∀ d, d ≠ c →
        (Node.add_parent g1 c y (some i)).parents d = g.parents d := by
      intro d hd
      rw [parents_add_parent_other g1 c y (some i) d hd, hpar,
        Function.update_noteq hd]
    have hstep_children_x : ∀ e,
        e ∈ (Node.add_parent g1 c y (some i)).children x
          ↔ (e ∈ g.children x ∧ e ≠ c) := by
      intro e
      rw [children_add_parent_other g1 c y (some i) x hxy, hchi,
        Function.update_same, (hg.2.2 x).mem_erase_iff]
      tauto
    have hstep_children_y : ∀ e,
        e ∈ (Node.add_parent g1 c y (some i)).children y
          ↔ (e = c ∨ e ∈ g.children y) := by
      intro e
      rw [mem_children_add_parent_self, hchi,
        Function.update_noteq (Ne.symm hxy)]
    have hstep_children_other : ∀ r, r ≠ x → r ≠ y →
        (Node.add_parent g1 c y (some i)).children r = g.children r := by
      intro r hrx hry
      rw [children_add_parent_other g1 c y (some i) r hry, hchi,
        Function.update_noteq hrx]
    have hxrest : ∀ c2 ∈ rest,
        x ∈ (Node.add_parent g1 c y (some i)).parents c2 := by
      intro c2 hc2
      have hc2c : c2 ≠ c := fun he => hcrest (he ▸ hc2)
      rw [hstep_parents_other c2 hc2c]
      exact hx c2 (List.mem_cons_of_mem c hc2)
    have hyrest : ∀ c2 ∈ rest,
        y ∉ (Node.add_parent g1 c y (some i)).parents c2 := by
      intro c2 hc2
      have hc2c : c2 ≠ c := fun he => hcrest (he ▸ hc2)
      rw [hstep_parents_other c2 hc2c]
      exact hy c2 (List.mem_cons_of_mem c hc2)
    obtain ⟨g2, hloop, hg2, h2pc, h2frame, h2cx, h2cy, h2cr⟩ :=
      ih (Node.add_parent g1 c y (some i)) hg2' (List.nodup_cons.mp hnd).2
        hxrest hyrest
    refine ⟨g2, ?_, hg2, ?_, ?_, ?_, ?_, ?_⟩
    · simp only [Node.transferChildrenLoop]
      rw [hrp]
      exact hloop
    · intro c2 hc2
      rcases List.mem_cons.mp hc2 with he | hc2r
      · rw [he, h2frame c hcrest, hpc]
      · rw [h2pc c2 hc2r, hstep_parents_other c2 (fun heq => hcrest (heq ▸ hc2r))]
    · intro d hd
      have hdc : d ≠ c := fun he => hd (he ▸ List.mem_cons_self c rest)
      have hdr : d ∉ rest := fun hm => hd (List.mem_cons_of_mem c hm)
      rw [h2frame d hdr, hstep_parents_other d hdc]
    · intro e
      rw [h2cx e, hstep_children_x e]
      simp only [List.mem_cons]
      tauto
    · intro e
      rw [h2cy e, hstep_children_y e]
      simp only [List.mem_cons]
      tauto
    · intro r hrx hry
      rw [h2cr r hrx hry, hstep_children_other r hrx hry]

/-- `replace_by(y, transfer_parents=True, transfer_children=True)` on a
well-formed graph (no self-loop on `x`, `y` not adjacent to `x`, and no edge
that would be duplicated by the transfer): every child of `x` gets `y` at the
exact position `x` held, `x`'s parents are appended to `y`'s, and `x` keeps no
parent or child edge; the graph invariant is preserved. -/
theorem replace_by_spec (g : NodeGraph) (x y : Nat) (hg : GraphInv g)
    (hxy : x ≠ y) (hxx : x ∉ g.parents x) (hyx : y ∉ g.parents x)
    (hxpy : x ∉ g.parents y)
    (hpy : ∀ p ∈ g.parents x, p ∉ g.parents y)
    (hcy : ∀ c ∈ g.children x, y ∉ g.parents c) :
    ∃ g2, Node.replace_by g x y true true = some g2 ∧ GraphInv g2 ∧
      (∀ c ∈ g.children x, g2.parents c
        = (g.parents c).map (fun q => if q = x then y else q)) ∧
      g2.parents y = g.parents y ++ g.parents x ∧
      g2.parents x = [] ∧
      g2.children x = [] := by
  obtain ⟨g1, hl1, hg1, h1mem, h1frame, h1chi⟩ :
      ∃ g1, Node.removeParentsList x (g.parents x) g = some g1 ∧ GraphInv g1 ∧
        (∀ q, q ∈ g1.parents x ↔ (q ∈ g.parents x ∧ q ∉ g.parents x)) ∧
        (∀ d, d ≠ x → g1.parents d = g.parents d) ∧
        (∀ r e, e ∈ g1.children r
          ↔ (e ∈ g.children r ∧ ¬(e = x ∧ r ∈ g.parents x))) := by
    obtain ⟨g1, h1, h2, h3, h4, h5⟩ :=
      removeParentsList_spec x (g.parents x) g hg (hg.2.1 x) (fun p hp => hp)
    exact ⟨g1, h1, h2, h3, h4, h5⟩
  have hp1x : g1.parents x = [] := by
    rw [List.eq_nil_iff_forall_not_mem]
    intro q hq
    have h := (h1mem q).mp hq
    exact h.2 h.1
  have hp1y : g1.parents y = g.parents y := h1frame y (Ne.symm hxy)
  have hpsfresh : ∀ p ∈ g.parents x, p ∉ g1.parents y := by
    intro p hp
    rw [hp1y]
    exact hpy p hp
  obtain ⟨hgmid, hmidpy, hmidframe, hmidchfr, hmidchmem⟩ :=
    add_parents_spec y (g.parents x) g1 hg1 (hg.2.1 x) hpsfresh
  set gmid := Node.add_parents g1 y (g.parents x) with hgmiddef
  have hmidchx : gmid.children x = g1.children x := hmidchfr x hxx
  have hmidchx_mem : ∀ e, e ∈ gmid.children x ↔ e ∈ g.children x := by
    intro e
    rw [hmidchx, h1chi x e]
    simp [hxx]
  have hc_not_xy : ∀ c ∈ g.children x, c ≠ x ∧ c ≠ y := by
    intro c hc
    constructor
    · intro he
      exact hxx ((hg.1 x x).mpr (he ▸ hc))
    · intro he
      exact hxpy ((hg.1 x y).mpr (he ▸ hc))
  have hmid_parents_c : ∀ c, c ≠ x → c ≠ y → gmid.parents c = g.parents c := by
    intro c hcx hcy2
    rw [hmidframe c hcy2, h1frame c hcx]
  have hxcs : ∀ c ∈ gmid.children x, x ∈ gmid.parents c := by
    intro c hc
    have hgc : c ∈ g.children x := (hmidchx_mem c).mp hc
    obtain ⟨hcx, hcy2⟩ := hc_not_xy c hgc
    rw [hmid_parents_c c hcx hcy2]
    exact (hg.1 x c).mpr hgc
  have hycs : ∀ c ∈ gmid.children x, y ∉ gmid.parents c := by
    intro c hc
    have hgc : c ∈ g.children x := (hmidchx_mem c).mp hc
    obtain ⟨hcx, hcy2⟩ := hc_not_xy c hgc
    rw [hmid_parents_c c hcx hcy2]
    exact hcy c hgc
  obtain ⟨g2, hloop2, hg2f, h2pc, h2frame, h2cx, h2cy, h2cr⟩ :=
    transferChildrenLoop_spec x y hxy (gmid.children x) gmid hgmid
      (hgmid.2.2 x) hxcs hycs
  have hxnotcs : x ∉ gmid.children x := by
    rw [hmidchx_mem x]
    intro hmem
    exact hxx ((hg.1 x x).mpr hmem)
  have hynotcs : y ∉ gmid.children x := by
    rw [hmidchx_mem y]
    intro hmem
    exact hxpy ((hg.1 x y).mpr hmem)
  refine ⟨g2, ?_, hg2f, ?_, ?_, ?_, ?_⟩
  · show ((Node.removeParentsList x (g.parents x) g).map
        (fun g1 => Node.add_parents g1 y (g.parents x))).bind
        (fun g1 => Node.transferChildrenLoop x y (g1.children x) g1) = some g2
    rw [hl1, Option.map_some', Option.some_bind]
    exact hloop2
  · intro c hc
    have hcs : c ∈ gmid.children x := (hmidchx_mem c).mpr hc
    obtain ⟨hcx, hcy2⟩ := hc_not_xy c hc
    rw [h2pc c hcs, hmid_parents_c c hcx hcy2]
  · rw [h2frame y hynotcs, hmidpy, hp1y]
  · rw [h2frame x hxnotcs, hmidframe x hxy, hp1x]
  · rw [List.eq_nil_iff_forall_not_mem]
    intro e he
    have h := (h2cx e).mp he
    exact h.2 h.1

/-- The graph with no edges. -/
def emptyGraph : NodeGraph := ⟨fun _ => [], fun _ => []⟩

/-- Node 1 given node 0 as parent twice (`add_parent` does not reject an
existing parent; `children` is a set, so node 0 records child 1 once). -/
def gdup : NodeGraph :=
  Node.add_parent (Node.add_parent emptyGraph 1 0 none) 1 0 none

/-- The state after `gdup`'s node 1 removes parent 0 once. -/
def gdup2 : NodeGraph :=
  ((Node.remove_parent gdup 1 0).map Prod.fst).getD emptyGraph

theorem gdup_parents_ne (c : Nat) (hc : c ≠ 1) : gdup.parents c = [] := by
  simp only [gdup, emptyGraph, Node.add_parent]
  rw [Function.update_noteq hc, Function.update_noteq hc]

theorem gdup_children_ne (p : Nat) (hp : p ≠ 0) : gdup.children p = [] := by
  simp only [gdup, emptyGraph, Node.add_parent]
  rw [Function.update_noteq hp, Function.update_noteq hp]

theorem EdgeSymm_gdup : EdgeSymm gdup := by
  intro p c
  by_cases hc : c = 1 <;> by_cases hp : p = 0
  · rw [hc, hp]
    decide
  · rw [hc]
    have h1 : gdup.parents 1 = [0, 0] := by decide
    have h2 : gdup.children p = [] := gdup_children_ne p hp
    rw [h1, h2]
    simp [hp]
  · rw [hp]
    have h1 : gdup.parents c = [] := gdup_parents_ne c hc
    have h2 : gdup.children 0 = [1] := by decide
    rw [h1, h2]
    simp
    omega
  · rw [gdup_parents_ne c hc, gdup_children_ne p hp]
    simp

/-- C5 counterexample: `gdup` is reachable by two `add_parent` calls from the
empty graph and satisfies edge symmetry; one `remove_parent(0)` on node 1
(`del parents[0]` plus `children.remove`) leaves node 0 in 1's parent list
while 1 is gone from 0's children — edge symmetry alone is NOT preserved by
every structural operation. -/
theorem C5_edge_symmetry_counterexample :
    EdgeSymm gdup ∧
    Node.remove_parent gdup 1 0 = some (gdup2, 0) ∧
    0 ∈ gdup2.parents 1 ∧
    1 ∉ gdup2.children 0 := by
  refine ⟨EdgeSymm_gdup, rfl, by decide, by decide⟩

/-- C5 (amended): edge symmetry alone is not an invariant (see the
counterexample, where a duplicated parent edge lets `remove_parent` break it);
the invariant the structural operations maintain is edge symmetry together
with duplicate-freeness of the parent lists and children sets, with the
edge-adding operations applied to edges not already present and `replace_by`
to a replacement that duplicates no edge. -/
theorem C5_graph_invariant (g : NodeGraph) (hg : GraphInv g) :
    EdgeSymm g ∧
    (∀ c p i, p ∉ g.parents c → GraphInv (Node.add_parent g c p i)) ∧
    (∀ c ns, ns.Nodup → (∀ p ∈ ns, p ∉ g.parents c) →
      GraphInv (Node.add_parents g c ns)) ∧
    (∀ p c, p ∉ g.parents c → GraphInv (Node.add_child g p c)) ∧
    (∀ c i g2, Node.remove_parent_at g c i = some g2 → GraphInv g2) ∧
    (∀ c p g2 i, Node.remove_parent g c p = some (g2, i) → GraphInv g2) ∧
    (∀ x kp kc g2, Node.remove g x kp kc = some g2 → GraphInv g2) ∧
    (∀ x y g2, x ≠ y → x ∉ g.parents x → y ∉ g.parents x → x ∉ g.parents y →
      (∀ p ∈ g.parents x, p ∉ g.parents y) →
      (∀ c ∈ g.children x, y ∉ g.parents c) →
      Node.replace_by g x y true true = some g2 → GraphInv g2) := by
  refine ⟨hg.1, ?_, ?_, ?_, ?_, ?_, ?_, ?_⟩
  · exact fun c p i hp => GraphInv_add_parent g c p i hg hp
  · exact fun c ns hnd hf => (add_parents_spec c ns g hg hnd hf).1
  · exact fun p c hp => GraphInv_add_parent g c p none hg hp
  · exact fun c i g2 h => GraphInv_remove_parent_at g c i g2 hg h
  · exact fun c p g2 i h => GraphInv_remove_parent g c p g2 i hg h
  · exact fun x kp kc g2 h => GraphInv_remove g x kp kc g2 hg h
  · intro x y g2 hxy hxx hyx hxpy hpy hcy h
    obtain ⟨g2', hr, hinv, _⟩ :=
      replace_by_spec g x y hg hxy hxx hyx hxpy hpy hcy
    rw [h] at hr
    injection hr with he
    rw [he]
    exact hinv

/-- C5 witness: the empty graph satisfies the invariant and a first
`add_parent` keeps it. -/
theorem C5_graph_invariant_witness :
    GraphInv emptyGraph ∧ GraphInv (Node.add_parent emptyGraph 1 0 none) := by
  have hg : GraphInv emptyGraph :=
    ⟨fun p c => by simp [emptyGraph], fun c => by simp [emptyGraph],
      fun p => by simp [emptyGraph]⟩
  exact ⟨hg, (C5_graph_invariant emptyGraph hg).2.1 1 0 none (by simp [emptyGraph])⟩

/-- C6: `x.replace_by(y)` with both transfers enabled (and no duplicated edge
created by the transfer): every child `c` of `x` ends with `y` at exactly the
position `x` occupied in `c`'s parent list (in-place replacement), `x`'s
parents become parents of `y` (appended, preserving their order), and `x`
retains no parent or child edges. -/
theorem C6_replace_by_rewires (g : NodeGraph) (x y : Nat) (hg : GraphInv g)
    (hxy : x ≠ y) (hxx : x ∉ g.parents x) (hyx : y ∉ g.parents x)
    (hxpy : x ∉ g.parents y)
    (hpy : ∀ p ∈ g.parents x, p ∉ g.parents y)
    (hcy : ∀ c ∈ g.children x, y ∉ g.parents c) :
    ∃ g2, Node.replace_by g x y true true = some g2 ∧
      (∀ c ∈ g.children x, g2.parents c
        = (g.parents c).map (fun q => if q = x then y else q)) ∧
      g2.parents y = g.parents y ++ g.parents x ∧
      g2.parents x = [] ∧ g2.children x = [] := by
  obtain ⟨g2, h1, _, h3, h4, h5, h6⟩ :=
    replace_by_spec g x y hg hxy hxx hyx hxpy hpy hcy
  exact ⟨g2, h1, h3, h4, h5, h6⟩

/-- A small concrete graph: node 0 has parent 2 and child 1. -/
def gC6 : NodeGraph :=
  ⟨fun c => if c = 1 then [0] else if c = 0 then [2] else [],
   fun p => if p = 0 then [1] else if p = 2 then [0] else []⟩

/-- The state after `gC6`'s node 0 is replaced by node 3. -/
def gC6res : NodeGraph :=
  (Node.replace_by gC6 0 3 true true).getD emptyGraph

theorem GraphInv_gC6 : GraphInv gC6 := by
  refine ⟨?_, ?_, ?_⟩
  · intro p c
    by_cases hc1 : c = 1 <;> by_cases hc0 : c = 0 <;> by_cases hp0 : p = 0
      <;> by_cases hp2 : p = 2 <;> simp_all [gC6]
  · intro c
    by_cases hc1 : c = 1 <;> by_cases hc0 : c = 0 <;> simp_all [gC6]
  · intro p
    by_cases hp0 : p = 0 <;> by_cases hp2 : p = 2 <;> simp_all [gC6]

/-- C6 witness: replacing node 0 by node 3 in `gC6` puts 3 exactly where 0
stood in node 1's parent list, hands parent 2 over to 3, and leaves node 0
with no edges. -/
theorem C6_replace_by_witness :
    GraphInv gC6 ∧
    Node.replace_by gC6 0 3 true true = some gC6res ∧
    gC6res.parents 1 = [3] ∧ gC6res.parents 3 = [2] ∧
    gC6res.parents 0 = [] ∧ gC6res.children 0 = [] := by
  have hg : GraphInv gC6 := GraphInv_gC6
  obtain ⟨g2, hr, hpc, hpy, hpx, hcx⟩ :=
    C6_replace_by_rewires gC6 0 3 hg (by decide) (by decide) (by decide)
      (by decide) (by decide) (by decide)
  have he : gC6res = g2 := by
    simp only [gC6res, hr]
    rfl
  refine ⟨hg, by rw [hr, he], ?_, ?_, by rw [he, hpx], by rw [he, hcx]⟩
  · rw [he, hpc 1 (by decide)]
    decide
  · rw [he, hpy]
    decide

end Elfi
